import Mathlib

/-!
Verification of the WNFS private filesystem core (rs-wnfs) against its
natural-language specification.

The development shallowly embeds the Rust sources:

* a byte-level SHA3-256 (Keccak-f[1600]) used by the key-derivation layer
  (`wnfs/src/private/node.rs`),
* the key-derivation functions `derive_temporal_key` / `derive_snapshot_key`
  and `SnapshotKey::decrypt`,
* the little-endian uint256 serde helpers
  (`wnfs-nameaccumulator/src/uint256_serde_le.rs`),
* the private-directory protocol (`crates/fs/private/directory.rs`) over a
  symbolic forest,
* the latest-revision seeker (`wnfs/src/private/node.rs`),
* the HAMT diff algorithm (`wnfs/src/private/hamt/diff/node.rs`).

Bytes are `Nat` (< 256) and 64-bit lanes are `Nat` with explicit reduction
modulo `2 ^ 64`.
-/

set_option maxRecDepth 4000
set_option linter.unusedSectionVars false

namespace Wnfs

/-! ## SHA3-256 (Keccak-f[1600]), byte level -/

/-- 64-bit mask. -/
def w64 : Nat := 2 ^ 64

/-- Left-rotation of a 64-bit lane by `n` bits (the two shifted parts are
bit-disjoint, so addition realises their union). -/
def rotl64 (x n : Nat) : Nat :=
  (x * 2 ^ (n % 64)) % w64 + x % w64 / 2 ^ (64 - n % 64)

/-- Bitwise complement on a 64-bit lane. -/
def not64 (x : Nat) : Nat := (w64 - 1) - x % w64

/-- Rho step rotation offsets, indexed by lane `x + 5*y` (one row per value
of `y`). -/
def rhoOffsets : List Nat :=
  List.flatten
    [[0, 1, 62, 28, 27],
     [36, 44, 6, 55, 20],
     [3, 10, 43, 25, 39],
     [41, 45, 15, 21, 8],
     [18, 2, 61, 56, 14]]

/-- Pi step: lane `x + 5*y` moves to lane `y + 5*((2*x + 3*y) % 5)`. -/
def piTarget (i : Nat) : Nat :=
  let x := i % 5
  let y := i / 5
  y + 5 * ((2 * x + 3 * y) % 5)

/-- The 24 Keccak-f[1600] round constants, written in decimal. -/
def keccakRC : List Nat :=
  [1, 32898, 9223372036854808714,
   9223372039002292224, 32907, 2147483649,
   9223372039002292353, 9223372036854808585, 138,
   136, 2147516425, 2147483658,
   2147516555, 9223372036854775947, 9223372036854808713,
   9223372036854808579, 9223372036854808578, 9223372036854775936,
   32778, 9223372039002259466, 9223372039002292353,
   9223372036854808704, 2147483649, 9223372039002292232]

/-- Lane read from a 25-lane state. -/
def lane (s : List Nat) (i : Nat) : Nat := s.getD i 0

/-- One Keccak-f[1600] round: theta, rho, pi, chi, iota. -/
def keccakRound (s : List Nat) (rc : Nat) : List Nat :=
  let c := (List.range 5).map fun x =>
    Nat.xor (Nat.xor (Nat.xor (Nat.xor (lane s x) (lane s (x + 5))) (lane s (x + 10)))
      (lane s (x + 15))) (lane s (x + 20))
  let d := (List.range 5).map fun x =>
    Nat.xor (lane c ((x + 4) % 5)) (rotl64 (lane c ((x + 1) % 5)) 1)
  let s1 := (List.range 25).map fun i => Nat.xor (lane s i) (lane d (i % 5))
  let b := (List.range 25).map fun j =>
    match (List.range 25).find? (fun i => piTarget i = j) with
    | some i => rotl64 (lane s1 i) (rhoOffsets.getD i 0)
    | none => 0
  let s2 := (List.range 25).map fun i =>
    let x := i % 5
    let y := i / 5
    Nat.xor (lane b i) (Nat.land (not64 (lane b ((x + 1) % 5 + 5 * y)))
      (lane b ((x + 2) % 5 + 5 * y)))
  match s2 with
  | l0 :: rest => Nat.xor l0 rc :: rest
  | [] => []

/-- The full 24-round Keccak-f[1600] permutation. -/
def keccakF (s : List Nat) : List Nat :=
  keccakRC.foldl keccakRound s

/-- Absorbs one 136-byte rate block into the state (little-endian lanes). -/
def absorbBlock (s : List Nat) (block : List Nat) : List Nat :=
  (List.range 25).map fun j =>
    if j < 17 then
      Nat.xor (lane s j)
        ((List.range 8).foldl (fun acc k => acc + block.getD (8 * j + k) 0 % 256 * 2 ^ (8 * k)) 0)
    else lane s j

/-- SHA3 pad10*1 with domain-separation byte 0x06: pads to a positive multiple
of the 136-byte rate. -/
def sha3Pad (msg : List Nat) : List Nat :=
  let r := 136
  let padLen := r - msg.length % r
  if padLen = 1 then msg ++ [0x86]
  else msg ++ [0x06] ++ List.replicate (padLen - 2) 0 ++ [0x80]

/-- Absorbs `n` rate blocks of a padded message. -/
def absorbN : Nat → List Nat → List Nat → List Nat
  | 0, s, _ => s
  | n + 1, s, msg => absorbN n (keccakF (absorbBlock s (msg.take 136))) (msg.drop 136)

/-- Squeezes the first 32 output bytes from the final state. -/
def squeeze32 (s : List Nat) : List Nat :=
  (List.range 32).map fun i => lane s (i / 8) / 2 ^ (8 * (i % 8)) % 256

/-- SHA3-256 of a byte string, as implemented by the sha3 crate the sources
use for all content hashing. -/
def sha3_256 (msg : List Nat) : List Nat :=
  let padded := sha3Pad msg
  squeeze32 (absorbN (padded.length / 136) (List.replicate 25 0) padded)

/-! ## Key derivation (`wnfs/src/private/node.rs`) -/

/-- A 32-byte AES key (`AesKey::new`). -/
structure AesKey where
  bytes : List Nat
deriving DecidableEq

/-- The key used to encrypt the header section of a node (`TemporalKey`). -/
structure TemporalKey where
  key : AesKey
deriving DecidableEq

/-- The key used to encrypt the content of a node (`SnapshotKey`). -/
structure SnapshotKey where
  key : AesKey
deriving DecidableEq

/-- Modelled from the spec: the skip-ratchet crate's `Ratchet` is an opaque
state from which `derive_key()` yields a deterministic 32-byte key; the model
keeps the state as bytes and derives the key as a digest of the state. -/
structure Ratchet where
  state : List Nat
deriving DecidableEq

/-- Modelled from the spec: `derive_key()` is a deterministic keyed digest of
the current ratchet state. -/
def Ratchet.derive_key (r : Ratchet) : List Nat := sha3_256 r.state

/-- The private node header of `wnfs/src/private/node.rs`: inumber, ratchet
and bare namefilter (the namefilter is opaque at this layer). -/
structure PrivateNodeHeader where
  inumber : List Nat
  ratchet : Ratchet
  bareName : List Nat
deriving DecidableEq

/-- Embeds `impl From<&Ratchet> for TemporalKey`
(node.rs lines 756-760): `Self::from(AesKey::new(ratchet.derive_key()))`. -/
def temporalKeyOfRatchet (ratchet : Ratchet) : TemporalKey :=
  ⟨⟨ratchet.derive_key⟩⟩

/-- Embeds `PrivateNodeHeader::derive_temporal_key` (node.rs lines 643-646):
`AesKey::new(self.ratchet.derive_key()).into()`. -/
def PrivateNodeHeader.derive_temporal_key (h : PrivateNodeHeader) : TemporalKey :=
  ⟨⟨h.ratchet.derive_key⟩⟩

/-- Embeds `PrivateNodeHeader::derive_snapshot_key` (node.rs lines 668-671):
`AesKey::new(Sha3_256::hash(&self.ratchet.derive_key())).into()`. -/
def PrivateNodeHeader.derive_snapshot_key (h : PrivateNodeHeader) : SnapshotKey :=
  ⟨⟨sha3_256 h.ratchet.derive_key⟩⟩

/-- Embeds `TemporalKey::derive_snapshot_key` (node.rs lines 777-780):
`SnapshotKey(AesKey::new(Sha3_256::hash(&key.as_bytes())))`. -/
def TemporalKey.derive_snapshot_key (t : TemporalKey) : SnapshotKey :=
  ⟨⟨sha3_256 t.key.bytes⟩⟩

/-! ## `SnapshotKey::decrypt` (`wnfs/src/private/node.rs` lines 855-861) -/

/-- Size in bytes of the AES-GCM nonce prepended to ciphertexts. -/
def nonceSize : Nat := 12

/-- Errors of the symmetric crypto layer. -/
inductive AesError where
  | unableToEncrypt
  | unableToDecrypt
deriving DecidableEq

/-- The observable outcome of running a Rust function: a returned value, a
returned typed error, or a panic (control-flow escape). -/
inductive RustResult (ε : Type) (α : Type) where
  | ok : α → RustResult ε α
  | err : ε → RustResult ε α
  | panicked : RustResult ε α
deriving DecidableEq

/-- Embeds `SnapshotKey::decrypt`: `cipher_text.split_at(NONCE_SIZE)` followed
by an AES-256-GCM decryption whose failure is mapped to
`AesError::UnableToDecrypt`. Rust's `split_at(mid)` panics when
`mid > len`, which the model makes explicit; the AES-GCM cipher itself is a
parameter (key, nonce, data to optional plaintext). -/
def SnapshotKey.decrypt (aesGcm : List Nat → List Nat → List Nat → Option (List Nat))
    (k : SnapshotKey) (cipherText : List Nat) : RustResult AesError (List Nat) :=
  if cipherText.length < nonceSize then RustResult.panicked
  else
    match aesGcm k.key.bytes (cipherText.take nonceSize) (cipherText.drop nonceSize) with
    | some plain => RustResult.ok plain
    | none => RustResult.err AesError.unableToDecrypt

/-! ## The private-directory protocol (`crates/fs/private/directory.rs`)

The directory protocol is embedded symbolically: the skip-ratchet is a
(seed, step) pair, the namefilter is the list of elements added to it, the
saturated name is the (bare name, ratchet) pair that determines it, and the
SHA3 hash of saturated names is an injective-by-assumption parameter `hash`.
The forest (whose implementation is not under `src/`) is modelled from the
spec as a list of (name hash, stored node) entries, newest first; `set`
prepends (union insert of a fresh ciphertext) and `get` returns the first
entry whose name hash matches and whose stored node decrypts under the
supplied content key (the content key being determined by the ratchet). -/

namespace CratesFs

/-- A path segment: the UTF-8 bytes of the Rust `String`, compared (as Rust's
`Ord` does) byte-wise lexicographically. -/
abbrev Seg : Type := List Nat

/-- Symbolic skip-ratchet of the directory layer: a seed and a step count. -/
structure SRatchet where
  seed : Nat
  step : Nat
deriving DecidableEq

/-- Embeds `Ratchet::zero(seed)`. -/
def SRatchet.zero (seed : Nat) : SRatchet := ⟨seed, 0⟩

/-- Embeds `Ratchet::inc`. -/
def SRatchet.inc (r : SRatchet) : SRatchet := ⟨r.seed, r.step + 1⟩

/-- Symbolic namefilter: the list of elements added to the (initially empty)
bloom filter. -/
structure Namefilter where
  elems : List Nat
deriving DecidableEq

/-- Embeds `Namefilter::default()`. -/
def Namefilter.default : Namefilter := ⟨[]⟩

/-- Embeds `Namefilter::add`. -/
def Namefilter.add (nf : Namefilter) (x : Nat) : Namefilter := ⟨nf.elems ++ [x]⟩

/-- Embeds the `crates/fs` `PrivateNodeHeader`: bare name, ratchet, inumber. -/
structure PrivateNodeHeader where
  bareName : Namefilter
  ratchet : SRatchet
  inumber : Nat
deriving DecidableEq

/-- Embeds `PrivateNodeHeader::new` (`crates/fs/private/node.rs`): the bare
name is the parent bare name with the inumber added, the ratchet starts at
zero from the seed. -/
def PrivateNodeHeader.new (parentBareName : Namefilter) (inumber ratchetSeed : Nat) :
    PrivateNodeHeader :=
  ⟨parentBareName.add inumber, SRatchet.zero ratchetSeed, inumber⟩

/-- Embeds `PrivateNodeHeader::advance_ratchet`. -/
def PrivateNodeHeader.advance_ratchet (h : PrivateNodeHeader) : PrivateNodeHeader :=
  { h with ratchet := h.ratchet.inc }

/-- Modelled from the spec: the saturated namefilter (`get_saturated_name`,
not under `src/`) adds the temporal key to the bare name and saturates; it is
determined by the bare name and the ratchet, which the model keeps directly. -/
structure SaturatedName where
  bareName : Namefilter
  ratchet : SRatchet
deriving DecidableEq

/-- Modelled from the spec: `PrivateNodeHeader::get_saturated_name`. -/
def PrivateNodeHeader.get_saturated_name (h : PrivateNodeHeader) : SaturatedName :=
  ⟨h.bareName, h.ratchet⟩

/-- Embeds the `crates/fs` `PrivateRef`: the SHA3 hash of the saturated
namefilter and the content key derived from the ratchet (the wrapped ratchet
key is not needed to locate or check a stored node in the model). -/
structure PrivateRef (H : Type) where
  saturatedNameHash : H
  contentKey : SRatchet
deriving DecidableEq

/-- Modelled from the spec: `PrivateNodeHeader::get_private_ref` (not under
`src/`) packages the hash of the saturated name with the key derived from the
current ratchet. -/
def PrivateNodeHeader.get_private_ref {H : Type} (hash : SaturatedName → H)
    (h : PrivateNodeHeader) : PrivateRef H :=
  ⟨hash h.get_saturated_name, h.ratchet⟩

/-- Embeds `UnixFsNodeKind` (file or directory). -/
inductive UnixFsNodeKind where
  | file
  | dir
deriving DecidableEq

/-- Embeds the metadata relevant to the protocol: node kind and time. -/
structure Metadata where
  kind : UnixFsNodeKind
  time : Int
deriving DecidableEq

/-- Embeds `Metadata::new(time, kind)`. -/
def Metadata.new (time : Int) (kind : UnixFsNodeKind) : Metadata := ⟨kind, time⟩

/-- Embeds `PrivateDirectoryContent`: metadata and the `BTreeMap` of entries,
modelled as an association list sorted strictly by segment. -/
structure PrivateDirectoryContent (H : Type) where
  metadata : Metadata
  entries : List (Seg × PrivateRef H)
deriving DecidableEq

/-- Embeds `PrivateDirectory`. -/
structure PrivateDirectory (H : Type) where
  header : PrivateNodeHeader
  content : PrivateDirectoryContent H
deriving DecidableEq

/-- Embeds `PrivateFileContent`: metadata and inline content bytes. -/
structure PrivateFileContent where
  metadata : Metadata
  content : List Nat
deriving DecidableEq

/-- Embeds `PrivateFile`. -/
structure PrivateFile where
  header : PrivateNodeHeader
  content : PrivateFileContent
deriving DecidableEq

/-- Embeds `PrivateNode`. -/
inductive PrivateNode (H : Type) where
  | file : PrivateFile → PrivateNode H
  | dir : PrivateDirectory H → PrivateNode H
deriving DecidableEq

/-- The header of a private node. -/
def PrivateNode.header {H : Type} : PrivateNode H → PrivateNodeHeader
  | .file f => f.header
  | .dir d => d.header

/-- Embeds `PrivateDirectory::new`: fresh header, directory metadata, empty
entry map. -/
def PrivateDirectory.new {H : Type} (parentBareName : Namefilter)
    (inumber ratchetSeed : Nat) (time : Int) : PrivateDirectory H :=
  ⟨PrivateNodeHeader.new parentBareName inumber ratchetSeed,
    ⟨Metadata.new time UnixFsNodeKind.dir, []⟩⟩

/-- Embeds `PrivateFile::new` (not under `src/`; modelled from the spec and
its `crates/fs` call sites): fresh header, file metadata, inline content. -/
def PrivateFile.new (parentBareName : Namefilter) (inumber ratchetSeed : Nat)
    (time : Int) (content : List Nat) : PrivateFile :=
  ⟨PrivateNodeHeader.new parentBareName inumber ratchetSeed,
    ⟨Metadata.new time UnixFsNodeKind.file, content⟩⟩

/-- Embeds `PrivateDirectory::advance_ratchet`. -/
def PrivateDirectory.advance_ratchet {H : Type} (d : PrivateDirectory H) :
    PrivateDirectory H :=
  { d with header := d.header.advance_ratchet }

/-- Association-list lookup, embedding `BTreeMap::get`. -/
def entriesLookup {H : Type} (es : List (Seg × PrivateRef H)) (k : Seg) :
    Option (PrivateRef H) :=
  match es with
  | [] => none
  | (k0, v0) :: rest => if k0 = k then some v0 else entriesLookup rest k

/-- Order-preserving insert-or-replace, embedding `BTreeMap::insert`. -/
def entriesInsert {H : Type} (k : Seg) (v : PrivateRef H) :
    List (Seg × PrivateRef H) → List (Seg × PrivateRef H)
  | [] => [(k, v)]
  | (k0, v0) :: rest =>
    if k < k0 then (k, v) :: (k0, v0) :: rest
    else if k = k0 then (k, v) :: rest
    else (k0, v0) :: entriesInsert k v rest

/-- Key removal, embedding `BTreeMap::remove`. -/
def entriesRemove {H : Type} (k : Seg) :
    List (Seg × PrivateRef H) → List (Seg × PrivateRef H)
  | [] => []
  | (k0, v0) :: rest => if k0 = k then rest else (k0, v0) :: entriesRemove k rest

/-- Modelled from the spec: the private forest, a map from revision name
hashes to sets of stored ciphertexts, kept newest first. -/
abbrev PrivateForest (H : Type) : Type := List (H × PrivateNode H)

/-- Modelled from the spec: `PrivateForest::set` union-inserts the fresh
ciphertext of the node under the hash of its saturated name. -/
def forestSet {H : Type} (hash : SaturatedName → H) (name : SaturatedName)
    (node : PrivateNode H) (f : PrivateForest H) : PrivateForest H :=
  (hash name, node) :: f

/-- Modelled from the spec: `PrivateForest::get` fetches the ciphertexts
stored under the ref's name hash and returns the first that decrypts under
the ref's content key (symbolically: whose header carries that ratchet). -/
def forestGet {H : Type} [DecidableEq H] (ref : PrivateRef H) :
    PrivateForest H → Option (PrivateNode H)
  | [] => none
  | (hsh, n) :: rest =>
    if hsh = ref.saturatedNameHash ∧ n.header.ratchet = ref.contentKey then some n
    else forestGet ref rest

/-- Embeds `PathNodes`. -/
structure PathNodes (H : Type) where
  path : List (PrivateDirectory H × Seg)
  tail : PrivateDirectory H
deriving DecidableEq

/-- Embeds `PathNodesResult`. -/
inductive PathNodesResult (H : Type) where
  | complete : PathNodes H → PathNodesResult H
  | missingLink : PathNodes H → Seg → PathNodesResult H
  | notADirectory : PathNodes H → Seg → PathNodesResult H
deriving DecidableEq

/-- Embeds the filesystem error taxonomy (`FsError`), restricted to the
variants the directory protocol uses. -/
inductive FsError where
  | notFound
  | notAFile
  | notADirectory
  | invalidPath
  | directoryAlreadyExists
deriving DecidableEq

/-- Embeds `PrivateOpResult`. -/
structure PrivateOpResult (H : Type) (α : Type) where
  rootDir : PrivateDirectory H
  hamt : PrivateForest H
  result : α
deriving DecidableEq

/-- Embeds `PrivateDirectory::lookup_node`: entry lookup followed by a forest
get. -/
def PrivateDirectory.lookup_node {H : Type} [DecidableEq H] (d : PrivateDirectory H)
    (seg : Seg) (f : PrivateForest H) : Option (PrivateNode H) :=
  match entriesLookup d.content.entries seg with
  | some ref => forestGet ref f
  | none => none

/-- Embeds the loop of `PrivateDirectory::get_path_nodes`, carrying the
accumulated `(node, segment)` path. -/
def getPathNodesGo {H : Type} [DecidableEq H] (f : PrivateForest H) :
    PrivateDirectory H → List Seg → List (PrivateDirectory H × Seg) →
    PathNodesResult H
  | w, [], acc => .complete ⟨acc, w⟩
  | w, seg :: rest, acc =>
    match w.lookup_node seg f with
    | some (.dir d) => getPathNodesGo f d rest (acc ++ [(w, seg)])
    | some (.file _) => .notADirectory ⟨acc, w⟩ seg
    | none => .missingLink ⟨acc, w⟩ seg

/-- Embeds `PrivateDirectory::get_path_nodes`. -/
def PrivateDirectory.get_path_nodes {H : Type} [DecidableEq H]
    (self : PrivateDirectory H) (segs : List Seg) (f : PrivateForest H) :
    PathNodesResult H :=
  getPathNodesGo f self segs []

/-- Embeds `PrivateDirectory::create_path_nodes`. The source draws two fresh
32-byte strings per created directory from the rng; the model threads an
explicit draw counter through the stream `rng`. -/
def createPathNodes {H : Type} (rng : Nat → Nat × Nat) (c : Nat) (segs : List Seg)
    (time : Int) (parentBareName : Namefilter) : PathNodes H × Nat :=
  match segs with
  | [] => (⟨[], PrivateDirectory.new parentBareName (rng c).1 (rng c).2 time⟩, c + 1)
  | seg :: rest =>
    let d : PrivateDirectory H := PrivateDirectory.new parentBareName (rng c).1 (rng c).2 time
    let (pn, cNew) := createPathNodes rng (c + 1) rest time d.header.bareName
    (⟨(d, seg) :: pn.path, pn.tail⟩, cNew)

/-- Embeds `utils::split_last` (not under `src/`): split off the final path
segment, failing on the empty path. -/
def splitLast (segs : List Seg) : Option (List Seg × Seg) :=
  match segs.getLast? with
  | none => none
  | some last => some (segs.dropLast, last)

/-- Embeds `PrivateDirectory::get_or_create_path_nodes`: a complete walk is
returned as is, a mid-path file yields `FsError::InvalidPath`, and a missing
link is repaired by creating the remaining directories. -/
def PrivateDirectory.get_or_create_path_nodes {H : Type} [DecidableEq H]
    (self : PrivateDirectory H) (segs : List Seg) (time : Int)
    (f : PrivateForest H) (rng : Nat → Nat × Nat) (c : Nat) :
    RustResult FsError (PathNodes H × Nat) :=
  match self.get_path_nodes segs f with
  | .complete pn => RustResult.ok (pn, c)
  | .notADirectory _ _ => RustResult.err FsError.invalidPath
  | .missingLink pathSoFar missingLink =>
    let missingPath := segs.drop (pathSoFar.path.length + 1)
    let parentBareName := pathSoFar.tail.header.bareName
    let (mpn, cNew) := createPathNodes rng c missingPath time parentBareName
    RustResult.ok (⟨pathSoFar.path ++ [(pathSoFar.tail, missingLink)] ++ mpn.path, mpn.tail⟩, cNew)

/-- Embeds the reverse loop of `PrivateDirectory::fix_up_path_nodes`,
rewritten as forward recursion over the path: the deeper parents are fixed up
first, each parent is cloned, its ratchet advanced, its entry for the segment
repointed at the rebuilt child, and the child indexed into the forest under
its saturated name. -/
def fixUpGo {H : Type} (hash : SaturatedName → H) :
    List (PrivateDirectory H × Seg) → PrivateDirectory H → PrivateForest H →
    PrivateDirectory H × PrivateForest H
  | [], child, forest => (child, forest)
  | (p, seg) :: rest, child, forest =>
    let (c2, f2) := fixUpGo hash rest child forest
    let childPrivateRef := c2.header.get_private_ref hash
    let p2 : PrivateDirectory H :=
      { header := p.header.advance_ratchet,
        content := { p.content with
          entries := entriesInsert seg childPrivateRef p.content.entries } }
    let f3 := forestSet hash c2.header.get_saturated_name (PrivateNode.dir c2) f2
    (p2, f3)

/-- Embeds `PrivateDirectory::fix_up_path_nodes`: advance the tail's ratchet,
rebuild every ancestor bottom-up, then index the new root itself. -/
def fix_up_path_nodes {H : Type} (hash : SaturatedName → H) (pathNodes : PathNodes H)
    (forest : PrivateForest H) : PrivateDirectory H × PrivateForest H :=
  let child := pathNodes.tail.advance_ratchet
  let (root, f2) := fixUpGo hash pathNodes.path child forest
  (root, forestSet hash root.header.get_saturated_name (PrivateNode.dir root) f2)

/-- Embeds `PrivateDirectory::get_node`: the empty path returns the root
itself; otherwise the parent path is walked and the final segment looked up,
with both a missing link and a mid-path file reported as `FsError::NotFound`. -/
def PrivateDirectory.get_node {H : Type} [DecidableEq H] (self : PrivateDirectory H)
    (segs : List Seg) (forest : PrivateForest H) :
    RustResult FsError (PrivateOpResult H (Option (PrivateNode H))) :=
  match splitLast segs with
  | none =>
    RustResult.ok ⟨self, forest, some (PrivateNode.dir self)⟩
  | some (parentPath, lastSeg) =>
    match self.get_path_nodes parentPath forest with
    | .complete parentPathNodes =>
      RustResult.ok ⟨self, forest, parentPathNodes.tail.lookup_node lastSeg forest⟩
    | .missingLink _ _ => RustResult.err FsError.notFound
    | .notADirectory _ _ => RustResult.err FsError.notFound

/-- Embeds `PrivateDirectory::read`: resolve the parent path, look up the
file name, and return the inline content bytes. -/
def PrivateDirectory.read {H : Type} [DecidableEq H] (self : PrivateDirectory H)
    (segs : List Seg) (forest : PrivateForest H) :
    RustResult FsError (PrivateOpResult H (List Nat)) :=
  match splitLast segs with
  | none => RustResult.err FsError.invalidPath
  | some (path, filename) =>
    match self.get_path_nodes path forest with
    | .complete nodePath =>
      match nodePath.tail.lookup_node filename forest with
      | some (PrivateNode.file file) =>
        RustResult.ok ⟨self, forest, file.content.content⟩
      | some (PrivateNode.dir _) => RustResult.err FsError.notAFile
      | none => RustResult.err FsError.notFound
    | _ => RustResult.err FsError.notFound

/-- The continuation of `PrivateDirectory::write` once the file node to store
is known: index the file, point the parent entry at it, and fix up the path. -/
def writeFinish {H : Type} (hash : SaturatedName → H) (pathNodes : PathNodes H)
    (filename : Seg) (file : PrivateFile) (forest : PrivateForest H) (c : Nat) :
    RustResult FsError (PrivateOpResult H Unit × Nat) :=
  let childPrivateRef := file.header.get_private_ref hash
  let forest1 := forestSet hash file.header.get_saturated_name (PrivateNode.file file) forest
  let directory := pathNodes.tail
  let directory2 : PrivateDirectory H :=
    { directory with content := { directory.content with
        entries := entriesInsert filename childPrivateRef directory.content.entries } }
  let (root, forest2) := fix_up_path_nodes hash { pathNodes with tail := directory2 } forest1
  RustResult.ok (⟨root, forest2, ()⟩, c)

/-- The file-selection step of `PrivateDirectory::write`: modify the file if
it already exists (`DirectoryAlreadyExists` when a directory sits there,
returned as `none`), otherwise create a fresh file from two rng draws. -/
def writeFileOf {H : Type} [DecidableEq H] (directory : PrivateDirectory H)
    (filename : Seg) (forest : PrivateForest H) (time : Int) (content : List Nat)
    (rng : Nat → Nat × Nat) (c1 : Nat) : Option (PrivateFile × Nat) :=
  match directory.lookup_node filename forest with
  | some (PrivateNode.dir _) => none
  | some (PrivateNode.file fileBefore) =>
    some ({ fileBefore with content := ⟨Metadata.new time UnixFsNodeKind.file, content⟩ }, c1)
  | none =>
    some (PrivateFile.new directory.header.bareName (rng c1).1 (rng c1).2 time content, c1 + 1)

/-- Embeds `PrivateDirectory::write`: create missing intermediate
directories, then overwrite the existing file's content or create a fresh
file, and fix up the whole path. -/
def PrivateDirectory.write {H : Type} [DecidableEq H] (hash : SaturatedName → H)
    (self : PrivateDirectory H) (segs : List Seg) (time : Int) (content : List Nat)
    (forest : PrivateForest H) (rng : Nat → Nat × Nat) (c : Nat) :
    RustResult FsError (PrivateOpResult H Unit × Nat) :=
  match splitLast segs with
  | none => RustResult.err FsError.invalidPath
  | some (directoryPath, filename) =>
    match self.get_or_create_path_nodes directoryPath time forest rng c with
    | RustResult.err e => RustResult.err e
    | RustResult.panicked => RustResult.panicked
    | RustResult.ok (pathNodes, c1) =>
      match writeFileOf pathNodes.tail filename forest time content rng c1 with
      | none => RustResult.err FsError.directoryAlreadyExists
      | some (file, c2) => writeFinish hash pathNodes filename file forest c2

/-- Embeds `PrivateDirectory::mkdir`: create every missing prefix directory
and fix up the path. -/
def PrivateDirectory.mkdir {H : Type} [DecidableEq H] (hash : SaturatedName → H)
    (self : PrivateDirectory H) (segs : List Seg) (time : Int)
    (forest : PrivateForest H) (rng : Nat → Nat × Nat) (c : Nat) :
    RustResult FsError (PrivateOpResult H Unit × Nat) :=
  match self.get_or_create_path_nodes segs time forest rng c with
  | RustResult.err e => RustResult.err e
  | RustResult.panicked => RustResult.panicked
  | RustResult.ok (pathNodes, c1) =>
    let (root, forest2) := fix_up_path_nodes hash pathNodes forest
    RustResult.ok (⟨root, forest2, ()⟩, c1)

/-- Embeds the entry loop of `PrivateDirectory::ls`: each entry is resolved
through the forest and reported with its metadata; an unresolvable entry
aborts with `FsError::NotFound`. -/
def lsEntries {H : Type} [DecidableEq H] (forest : PrivateForest H) :
    List (Seg × PrivateRef H) → RustResult FsError (List (Seg × Metadata))
  | [] => RustResult.ok []
  | (name, ref) :: rest =>
    match forestGet ref forest with
    | some (PrivateNode.file file) =>
      match lsEntries forest rest with
      | RustResult.ok l => RustResult.ok ((name, file.content.metadata) :: l)
      | RustResult.err e => RustResult.err e
      | RustResult.panicked => RustResult.panicked
    | some (PrivateNode.dir d) =>
      match lsEntries forest rest with
      | RustResult.ok l => RustResult.ok ((name, d.content.metadata) :: l)
      | RustResult.err e => RustResult.err e
      | RustResult.panicked => RustResult.panicked
    | none => RustResult.err FsError.notFound

/-- Embeds `PrivateDirectory::ls`: resolve the path to a directory and list
its entries in map order. -/
def PrivateDirectory.ls {H : Type} [DecidableEq H] (self : PrivateDirectory H)
    (segs : List Seg) (forest : PrivateForest H) :
    RustResult FsError (PrivateOpResult H (List (Seg × Metadata))) :=
  match self.get_path_nodes segs forest with
  | .complete pathNodes =>
    match lsEntries forest pathNodes.tail.content.entries with
    | RustResult.ok result => RustResult.ok ⟨self, forest, result⟩
    | RustResult.err e => RustResult.err e
    | RustResult.panicked => RustResult.panicked
  | _ => RustResult.err FsError.notFound

/-- Embeds `PrivateDirectory::rm`: resolve the parent path, remove the entry
from it, and fix up the path. The source unwraps the forest lookup of the
removed entry, which panics when the entry does not resolve. -/
def PrivateDirectory.rm {H : Type} [DecidableEq H] (hash : SaturatedName → H)
    (self : PrivateDirectory H) (segs : List Seg) (forest : PrivateForest H) :
    RustResult FsError (PrivateOpResult H (PrivateNode H)) :=
  match splitLast segs with
  | none => RustResult.err FsError.invalidPath
  | some (directoryPath, nodeName) =>
    match self.get_path_nodes directoryPath forest with
    | .complete pathNodes =>
      let directory := pathNodes.tail
      match entriesLookup directory.content.entries nodeName with
      | none => RustResult.err FsError.notFound
      | some ref =>
        match forestGet ref forest with
        | none => RustResult.panicked
        | some removedNode =>
          let directory2 : PrivateDirectory H :=
            { directory with content := { directory.content with
                entries := entriesRemove nodeName directory.content.entries } }
          let (root, forest2) :=
            fix_up_path_nodes hash { pathNodes with tail := directory2 } forest
          RustResult.ok ⟨root, forest2, removedNode⟩
    | _ => RustResult.err FsError.notFound

/-! ### Latest-revision seeker (`wnfs/src/private/node.rs`, `search_latest_nodes`)

The seeker is embedded over the same symbolic forest. The skip-ratchet
crate's `RatchetSeeker` is not under `src/` and is modelled from the spec:
an exponential probe whose jump doubles on every present hit and halves on a
miss until the step size is one. -/

/-- Embeds `PrivateForest::has` (modelled from the spec): an entry with the
given name hash exists. -/
def forestHas {H : Type} [DecidableEq H] (x : H) : PrivateForest H → Bool
  | [] => false
  | (hsh, _) :: rest => if hsh = x then true else forestHas x rest

/-- Embeds `RevisionRef`: an unwrapped revision pointer. -/
structure RevisionRef (H : Type) where
  saturatedNameHash : H
  temporalKey : SRatchet
deriving DecidableEq

/-- Embeds `PrivateForest::get_multivalue` (modelled from the spec): every
stored sibling under the name hash that decrypts under the revision's key. -/
def forestGetMultivalue {H : Type} [DecidableEq H] (ref : RevisionRef H) :
    PrivateForest H → List (PrivateNode H)
  | [] => []
  | (hsh, n) :: rest =>
    if hsh = ref.saturatedNameHash ∧ n.header.ratchet = ref.temporalKey then
      n :: forestGetMultivalue ref rest
    else forestGetMultivalue ref rest

/-- Embeds `Ratchet::seek`-style positioning: the same seed at an absolute
step count. -/
def SRatchet.seekTo (r : SRatchet) (k : Nat) : SRatchet := ⟨r.seed, k⟩

/-- Modelled from the spec: the `RatchetSeeker` loop of `search_latest_nodes`
at step granularity. `best` is the most recent step known present; the probe
at `best + jump` doubles the jump on a hit and halves it on a miss until the
step size is one. The fuel only bounds the loop; the result is the last
present step found. -/
def seekLoop (hasStep : Nat → Bool) : Nat → Nat → Nat → Nat
  | 0, best, _ => best
  | fuel + 1, best, jump =>
    if hasStep (best + jump) then seekLoop hasStep fuel (best + jump) (jump * 2)
    else if jump ≤ 1 then best
    else seekLoop hasStep fuel best (jump / 2)

/-- The forest presence of the node's revision label at a given ratchet
step. -/
def stepHas {H : Type} [DecidableEq H] (hash : SaturatedName → H)
    (h : PrivateNodeHeader) (forest : PrivateForest H) (k : Nat) : Bool :=
  forestHas (hash ⟨h.bareName, h.ratchet.seekTo k⟩) forest

/-- Embeds `PrivateNode::search_latest_nodes`: when the current revision
label is absent from the forest the node itself is returned unchanged;
otherwise the seeker finds the most recent present step and every node
concurrently published at that revision is returned. -/
def PrivateNode.search_latest_nodes {H : Type} [DecidableEq H]
    (hash : SaturatedName → H) (node : PrivateNode H) (forest : PrivateForest H)
    (fuel : Nat) : List (PrivateNode H) :=
  let h := node.header
  if forestHas (hash h.get_saturated_name) forest = false then [node]
  else
    let finalStep := seekLoop (stepHas hash h forest) fuel h.ratchet.step 1
    forestGetMultivalue
      ⟨hash ⟨h.bareName, h.ratchet.seekTo finalStep⟩, h.ratchet.seekTo finalStep⟩ forest

/-- A concrete name-hash function for the fixtures: the ratchet seed of the
saturated name (seeds are chosen pairwise distinct below). -/
def demoHash : SaturatedName → Nat := fun sn => sn.ratchet.seed

/-- A concrete file stored at segment [97] below `demoRoot`. -/
def demoFile : PrivateFile := PrivateFile.new Namefilter.default 1 2 0 [7]

/-- A concrete empty directory stored at segment [98] below `demoRoot`. -/
def demoDir : PrivateDirectory Nat := PrivateDirectory.new Namefilter.default 5 6 0

/-- A concrete root directory with a file entry [97] and a directory entry
[98]. -/
def demoRoot : PrivateDirectory Nat :=
  ⟨PrivateNodeHeader.new Namefilter.default 3 4,
    ⟨Metadata.new 0 UnixFsNodeKind.dir,
      [([97], demoFile.header.get_private_ref demoHash),
       ([98], demoDir.header.get_private_ref demoHash)]⟩⟩

/-- The forest holding `demoFile` and `demoDir` under their name hashes. -/
def demoForest : PrivateForest Nat :=
  [(2, PrivateNode.file demoFile), (6, PrivateNode.dir demoDir)]

/-- Strictly ascending byte-wise lexicographic order of a list of segments. -/
def ascendingNames : List Seg → Bool
  | [] => true
  | [_] => true
  | a :: b :: rest => decide (a < b) && ascendingNames (b :: rest)

/-- The `BTreeMap` invariant of a directory's entry map: the segment keys are
strictly ascending. -/
def entriesAscending {H : Type} (es : List (Seg × PrivateRef H)) : Bool :=
  ascendingNames (es.map Prod.fst)

/-- The entry-map invariant of a stored node: trivial for files, the
`BTreeMap` invariant for directories. -/
def nodeEntriesAscending {H : Type} : PrivateNode H → Bool
  | .file _ => true
  | .dir d => entriesAscending d.content.entries

/-- The step the seeker of `search_latest_nodes` settles on. -/
def searchLatestStep {H : Type} [DecidableEq H] (hash : SaturatedName → H)
    (node : PrivateNode H) (forest : PrivateForest H) (fuel : Nat) : Nat :=
  seekLoop (stepHas hash node.header forest) fuel node.header.ratchet.step 1

/-- A name-hash function separating revision steps for the seeker witness. -/
def stepSeparatingHash : SaturatedName → Nat :=
  fun sn => sn.ratchet.seed + 100 * sn.ratchet.step

/-- The directory `fixUpGo` rebuilds at the top of the given path. -/
def fixUpDirs {H : Type} (hash : SaturatedName → H) :
    List (PrivateDirectory H × Seg) → PrivateDirectory H → PrivateDirectory H
  | [], child => child
  | (p, seg) :: rest, child =>
    let c2 := fixUpDirs hash rest child
    { header := p.header.advance_ratchet,
      content := { p.content with
        entries := entriesInsert seg (c2.header.get_private_ref hash) p.content.entries } }

/-- The rebuilt directories a walk along the fixed-up path looks up, in walk
order (excluding the root itself, including the rebuilt tail). -/
def chainDirs {H : Type} (hash : SaturatedName → H) :
    List (PrivateDirectory H × Seg) → PrivateDirectory H → List (PrivateDirectory H)
  | [], _ => []
  | _ :: rest, child => fixUpDirs hash rest child :: chainDirs hash rest child

/-- The forest entries `fixUpGo` prepends, newest first. -/
def fixUpNewEntries {H : Type} (hash : SaturatedName → H) :
    List (PrivateDirectory H × Seg) → PrivateDirectory H → PrivateForest H
  | [], _ => []
  | _ :: rest, child =>
    (hash (fixUpDirs hash rest child).header.get_saturated_name,
      PrivateNode.dir (fixUpDirs hash rest child)) :: fixUpNewEntries hash rest child

/-- A directory with one entry inserted (the parent update of `write`). -/
def insertEntryDir {H : Type} (d : PrivateDirectory H) (k : Seg) (v : PrivateRef H) :
    PrivateDirectory H :=
  { d with content := { d.content with entries := entriesInsert k v d.content.entries } }

/-- A directory with one entry removed (the parent update of `rm`). -/
def removeEntryDir {H : Type} (d : PrivateDirectory H) (k : Seg) : PrivateDirectory H :=
  { d with content := { d.content with entries := entriesRemove k d.content.entries } }

/-- A fresh empty root directory for the round-trip witness. -/
def roundTripRoot : PrivateDirectory Nat := PrivateDirectory.new Namefilter.default 3 4 0

/-- A deterministic rng stream for the round-trip witness. -/
def roundTripRng : Nat → Nat × Nat := fun n => (2 * n + 10, 2 * n + 11)

/-- The file the round-trip witness creates. -/
def roundTripFile : PrivateFile := PrivateFile.new roundTripRoot.header.bareName 10 11 0 [7]

end CratesFs

/-! ## Little-endian uint256 serde (`wnfs-nameaccumulator/src/uint256_serde_le.rs`) -/

/-- Little-endian base-256 digits of a positive number (auxiliary). -/
def natToBytesLEAux : Nat → List Nat
  | 0 => []
  | n + 1 => (n + 1) % 256 :: natToBytesLEAux ((n + 1) / 256)
decreasing_by exact Nat.div_lt_self (Nat.succ_pos n) (by omega)

/-- Embeds `BigUint::to_bytes_le`: minimal little-endian digits, with `[0]`
for zero. -/
def toBytesLE (n : Nat) : List Nat :=
  if n = 0 then [0] else natToBytesLEAux n

/-- Embeds `BigUint::from_bytes_le`: interpret bytes as little-endian base-256
digits. -/
def fromBytesLE : List Nat → Nat
  | [] => 0
  | b :: rest => b % 256 + 256 * fromBytesLE rest

/-- Embeds `to_bytes_helper`: copy the little-endian digits into a 256-byte
zero buffer. Rust panics (index out of range) when the digits exceed 256
bytes, which the model makes explicit. -/
def to_bytes_helper (n : Nat) : RustResult Unit (List Nat) :=
  let vec := toBytesLE n
  if vec.length ≤ 256 then RustResult.ok (vec ++ List.replicate (256 - vec.length) 0)
  else RustResult.panicked

/-- Embeds `uint256_serde_le::serialize` composed with
`uint256_serde_le::deserialize`: serialization emits the 256-byte buffer,
deserialization rebuilds the number from little-endian bytes. -/
def uint256RoundTrip (n : Nat) : RustResult Unit Nat :=
  match to_bytes_helper n with
  | RustResult.ok bytes => RustResult.ok (fromBytesLE bytes)
  | RustResult.err e => RustResult.err e
  | RustResult.panicked => RustResult.panicked

/-! ## HAMT diff (`wnfs/src/private/hamt/diff/node.rs`)

The HAMT node type is modelled from the spec (its own source file is not
under `src/`): a 16-bit bitmask with a parallel pointer array, each pointer a
bucket of key-value pairs or a link that is either a loaded node (with an
optional cached CID) or a CID to resolve through the block store. Hash keys
are kept as the list of their nibbles; `H::hash` is a parameter `hashK`
giving the nibble sequence of a key's digest. -/

namespace Hamt

mutual

/-- Modelled from the spec: a HAMT `Node`. -/
inductive Node (K V : Type) : Type where
  | mk : List Bool → List (Pointer K V) → Node K V

/-- Modelled from the spec: a HAMT `Pointer`. -/
inductive Pointer (K V : Type) : Type where
  | values : List (K × V) → Pointer K V
  | link : HLink K V → Pointer K V

/-- Modelled from the spec: a `Link` to a child node, either decoded (with an
optional cached CID) or encoded as a CID. -/
inductive HLink (K V : Type) : Type where
  | decoded : Node K V → Option Nat → HLink K V
  | encoded : Nat → HLink K V

end

/-- The bitmask of a node. -/
def Node.bitmask {K V : Type} : Node K V → List Bool
  | .mk bm _ => bm

/-- The pointer array of a node. -/
def Node.pointers {K V : Type} : Node K V → List (Pointer K V)
  | .mk _ ps => ps

/-- Embeds `Node::default`: empty bitmask, no pointers. -/
def Node.empty {K V : Type} : Node K V := .mk (List.replicate 16 false) []

/-- Embeds `get_value_index`: the rank of bit `i`, i.e. the number of set
bits strictly below it. -/
def rank (bm : List Bool) (i : Nat) : Nat := ((bm.take i).filter id).length

/-- The pointer of a node at branch `i`, when bit `i` is set. -/
def Node.branch {K V : Type} (n : Node K V) (i : Nat) : Option (Pointer K V) :=
  if n.bitmask.getD i false then (n.pointers).get? (rank n.bitmask i) else none

/-- Embeds `Link::get_cid`. -/
def HLink.getCid {K V : Type} : HLink K V → Option Nat
  | .decoded _ c => c
  | .encoded c => some c

/-- Embeds `Link::resolve_owned_value`: a decoded link yields its node, an
encoded link is loaded from the block store. -/
def HLink.resolve {K V : Type} (store : Nat → Option (Node K V)) :
    HLink K V → Option (Node K V)
  | .decoded n _ => some n
  | .encoded c => store c

/-- Embeds `ChangeType`. -/
inductive ChangeType where
  | add
  | remove
  | modify
deriving DecidableEq

/-- Embeds `NodeChange`: a change type together with the hash key (list of
nibbles) locating it. -/
structure NodeChange where
  type : ChangeType
  hashkey : List Nat
deriving DecidableEq

/-- Add and Remove swapped, Modify kept: the transformation of the flip
law. -/
def ChangeType.flip : ChangeType → ChangeType
  | .add => .remove
  | .remove => .add
  | .modify => .modify

/-- Flips one change. -/
def NodeChange.flip (c : NodeChange) : NodeChange := ⟨c.type.flip, c.hashkey⟩

/-- First-match association lookup in a bucket. -/
def lookupKV {K V : Type} [DecidableEq K] (vs : List (K × V)) (k : K) : Option V :=
  match vs with
  | [] => none
  | (k0, v0) :: rest => if k0 = k then some v0 else lookupKV rest k

/-- Replace the value stored under a key in a bucket. -/
def replaceKV {K V : Type} [DecidableEq K] (vs : List (K × V)) (k : K) (v : V) :
    List (K × V) :=
  match vs with
  | [] => []
  | (k0, v0) :: rest => if k0 = k then (k0, v) :: rest else (k0, v0) :: replaceKV rest k v

/-- Embeds `generate_add_or_remove_changes`: a bucket contributes one change
per pair at the pair's own hash key truncated one nibble past the current
depth; a link contributes a single change at the partial hash key. -/
def generateAddOrRemoveChanges {K V : Type} (hashK : K → List Nat)
    (p : Pointer K V) (t : ChangeType) (hashkey : List Nat) : List NodeChange :=
  match p with
  | .values vs => vs.map fun kv => ⟨t, (hashK kv.1).take (hashkey.length + 1)⟩
  | .link _ => [⟨t, hashkey⟩]

/-- Embeds the bucket-against-bucket case of `generate_modified_changes`:
key-wise set diff with `Modify` on common keys whose values differ. -/
def diffVV {K V : Type} [DecidableEq K] [DecidableEq V] (hashK : K → List Nat)
    (hashkey : List Nat) (mainValues otherValues : List (K × V)) : List NodeChange :=
  (mainValues.filterMap fun kv =>
    match lookupKV otherValues kv.1 with
    | some v =>
      if v ≠ kv.2 then some ⟨ChangeType.modify, (hashK kv.1).take (hashkey.length + 1)⟩
      else none
    | none => some ⟨ChangeType.add, (hashK kv.1).take (hashkey.length + 1)⟩)
  ++ ((otherValues.filter fun kv => (lookupKV mainValues kv.1).isNone).map
      fun kv => ⟨ChangeType.remove, (hashK kv.1).take (hashkey.length + 1)⟩)

/-- Set bit `i` of a bitmask. -/
def setBit (bm : List Bool) (i : Nat) : List Bool := bm.set i true

/-- Modelled from the spec: `Node::set_value` — descend along the nibbles of
the key's hash, install a one-entry bucket on a clear bit, replace or append
within a bucket, split a full bucket one level deeper, and resolve links
through the store. The fuel bounds the cursor depth (`CursorOutOfBounds` and
out-of-invariant nodes yield `none`). -/
def setValue {K V : Type} [DecidableEq K] (hashK : K → List Nat)
    (store : Nat → Option (Node K V)) :
    Nat → Nat → K → V → Node K V → Option (Node K V)
  | 0, _, _, _, _ => none
  | fuel + 1, cursor, k, v, node =>
    let nib := (hashK k).getD cursor 0
    if node.bitmask.getD nib false then
      match (node.pointers).get? (rank node.bitmask nib) with
      | none => none
      | some (.values vs) =>
        if (lookupKV vs k).isSome then
          some (.mk node.bitmask
            (node.pointers.set (rank node.bitmask nib) (.values (replaceKV vs k v))))
        else if vs.length < 3 then
          some (.mk node.bitmask
            (node.pointers.set (rank node.bitmask nib) (.values (vs ++ [(k, v)]))))
        else
          match (vs ++ [(k, v)]).foldlM
              (fun acc kv => setValue hashK store fuel (cursor + 1) kv.1 kv.2 acc)
              Node.empty with
          | none => none
          | some child =>
            some (.mk node.bitmask
              (node.pointers.set (rank node.bitmask nib) (.link (.decoded child none))))
      | some (.link l) =>
        match l.resolve store with
        | none => none
        | some child =>
          match setValue hashK store fuel (cursor + 1) k v child with
          | none => none
          | some child2 =>
            some (.mk node.bitmask
              (node.pointers.set (rank node.bitmask nib) (.link (.decoded child2 none))))
    else
      some (.mk (setBit node.bitmask nib)
        (node.pointers.insertIdx (rank node.bitmask nib) (.values [(k, v)])))

/-- Embeds `create_node_from_pairs`: insert every pair of a bucket into a
fresh node, starting the nibble cursor at the current hash-key length. -/
def createNodeFromPairs {K V : Type} [DecidableEq K] (hashK : K → List Nat)
    (store : Nat → Option (Node K V)) (fuel : Nat) (values : List (K × V))
    (cursor : Nat) : Option (Node K V) :=
  values.foldlM (fun acc kv => setValue hashK store fuel cursor kv.1 kv.2 acc) Node.empty

/-- The CID short-circuit of `node_diff_helper`: both links expose a CID and
the CIDs coincide. -/
def cidShortCircuit {K V : Type} (a b : HLink K V) : Bool :=
  match a.getCid, b.getCid with
  | some c1, some c2 => decide (c1 = c2)
  | _, _ => false

mutual

/-- Embeds `node_diff_helper`: stop at depth zero or on equal CIDs, resolve
both links, and fold the sixteen branches. The fuel bounds recursion through
store-resolved links; exhaustion is an error (`none`). -/
def nodeDiffHelper {K V : Type} [DecidableEq K] [DecidableEq V]
    (hashK : K → List Nat) (store : Nat → Option (Node K V)) (fuel : Nat)
    (mainLink otherLink : HLink K V) (depth : Option Nat) (hashkey : List Nat) :
    Option (List NodeChange) :=
  match fuel with
  | 0 => none
  | fuelLess + 1 =>
    if depth = some 0 then some []
    else if cidShortCircuit mainLink otherLink then some []
    else
      match mainLink.resolve store, otherLink.resolve store with
      | some mainNode, some otherNode =>
        diffBranches hashK store fuelLess mainNode otherNode depth hashkey (List.range 16)
      | _, _ => none
termination_by (fuel, 0, 0)

/-- The loop over the sixteen branch indices of `node_diff_helper`. -/
def diffBranches {K V : Type} [DecidableEq K] [DecidableEq V]
    (hashK : K → List Nat) (store : Nat → Option (Node K V)) (fuel : Nat)
    (mainNode otherNode : Node K V) (depth : Option Nat) (hashkey : List Nat)
    (idxs : List Nat) : Option (List NodeChange) :=
  match idxs with
  | [] => some []
  | i :: rest =>
    let hk := hashkey ++ [i]
    let here : Option (List NodeChange) :=
      match mainNode.branch i, otherNode.branch i with
      | some mp, none => some (generateAddOrRemoveChanges hashK mp ChangeType.add hk)
      | none, some op => some (generateAddOrRemoveChanges hashK op ChangeType.remove hk)
      | some mp, some op =>
        generateModifiedChanges hashK store fuel mp op (depth.map (· - 1)) hk
      | none, none => some []
    match here with
    | none => none
    | some cs =>
      match diffBranches hashK store fuel mainNode otherNode depth hashkey rest with
      | none => none
      | some csRest => some (cs ++ csRest)
termination_by (fuel, 2, idxs.length)

/-- Embeds `generate_modified_changes`: link against link recurses, bucket
against bucket set-diffs, and a bucket against a link is rehydrated into a
node before recursing. -/
def generateModifiedChanges {K V : Type} [DecidableEq K] [DecidableEq V]
    (hashK : K → List Nat) (store : Nat → Option (Node K V)) (fuel : Nat)
    (mainPointer otherPointer : Pointer K V) (depth : Option Nat)
    (hashkey : List Nat) : Option (List NodeChange) :=
  match mainPointer, otherPointer with
  | .link mainLink, .link otherLink =>
    nodeDiffHelper hashK store fuel mainLink otherLink depth hashkey
  | .values mainValues, .values otherValues =>
    some (diffVV hashK hashkey mainValues otherValues)
  | .values mainValues, .link otherLink =>
    match createNodeFromPairs hashK store fuel mainValues hashkey.length with
    | none => none
    | some mainNode =>
      nodeDiffHelper hashK store fuel (.decoded mainNode none) otherLink depth hashkey
  | .link mainLink, .values otherValues =>
    match createNodeFromPairs hashK store fuel otherValues hashkey.length with
    | none => none
    | some otherNode =>
      nodeDiffHelper hashK store fuel mainLink (.decoded otherNode none) depth hashkey
termination_by (fuel, 1, 0)

end

/-- Embeds `node_diff`: the helper from the empty hash key. -/
def nodeDiff {K V : Type} [DecidableEq K] [DecidableEq V]
    (hashK : K → List Nat) (store : Nat → Option (Node K V)) (fuel : Nat)
    (mainLink otherLink : HLink K V) (depth : Option Nat) :
    Option (List NodeChange) :=
  nodeDiffHelper hashK store fuel mainLink otherLink depth []

/-- First-occurrence erase of a key from a bucket. -/
def eraseKV {K V : Type} [DecidableEq K] (k : K) : List (K × V) → List (K × V)
  | [] => []
  | (k0, v0) :: rest => if k0 = k then rest else (k0, v0) :: eraseKV k rest

mutual

/-- Well-formedness of a HAMT node: every bucket reachable without the store
has pairwise distinct keys (the spec's bucket invariant). -/
inductive NodeWF {K V : Type} : Node K V → Prop where
  | mk : ∀ (bm : List Bool) (ps : List (Pointer K V)),
      (∀ p ∈ ps, PointerWF p) → NodeWF (Node.mk bm ps)

/-- Well-formedness of a pointer. -/
inductive PointerWF {K V : Type} : Pointer K V → Prop where
  | values : ∀ vs : List (K × V), (vs.map Prod.fst).Nodup → PointerWF (Pointer.values vs)
  | link : ∀ l : HLink K V, LinkWF l → PointerWF (Pointer.link l)

/-- Well-formedness of a link; an encoded link defers to the store. -/
inductive LinkWF {K V : Type} : HLink K V → Prop where
  | decoded : ∀ (n : Node K V) (c : Option Nat), NodeWF n → LinkWF (HLink.decoded n c)
  | encoded : ∀ c : Nat, LinkWF (HLink.encoded c)

end

/-- Well-formedness of the block store: every stored node is well formed. -/
def StoreWF {K V : Type} (store : Nat → Option (Node K V)) : Prop :=
  ∀ c n, store c = some n → NodeWF n

/-- The flip relation between the two directions of a diff: both error, or
the second is a permutation of the first with Add and Remove swapped. -/
def flipRel (r1 r2 : Option (List NodeChange)) : Prop :=
  match r1, r2 with
  | some l1, some l2 => l2.Perm (l1.map NodeChange.flip)
  | none, none => True
  | _, _ => False

def NdhFlip {K V : Type} [DecidableEq K] [DecidableEq V] (hashK : K → List Nat)
    (store : Nat → Option (Node K V)) (fuel : Nat) : Prop :=
  ∀ (ml ol : HLink K V) (depth : Option Nat) (hk : List Nat),
    LinkWF ml → LinkWF ol →
    flipRel (nodeDiffHelper hashK store fuel ml ol depth hk)
      (nodeDiffHelper hashK store fuel ol ml depth hk)

def GmcFlip {K V : Type} [DecidableEq K] [DecidableEq V] (hashK : K → List Nat)
    (store : Nat → Option (Node K V)) (fuel : Nat) : Prop :=
  ∀ (mp op : Pointer K V) (depth : Option Nat) (hk : List Nat),
    PointerWF mp → PointerWF op →
    flipRel (generateModifiedChanges hashK store fuel mp op depth hk)
      (generateModifiedChanges hashK store fuel op mp depth hk)

def DbFlip {K V : Type} [DecidableEq K] [DecidableEq V] (hashK : K → List Nat)
    (store : Nat → Option (Node K V)) (fuel : Nat) : Prop :=
  ∀ (nm no : Node K V) (depth : Option Nat) (hk : List Nat) (idxs : List Nat),
    NodeWF nm → NodeWF no →
    flipRel (diffBranches hashK store fuel nm no depth hk idxs)
      (diffBranches hashK store fuel no nm depth hk idxs)

def optAppend (a b : Option (List NodeChange)) : Option (List NodeChange) :=
  match a with
  | none => none
  | some cs =>
    match b with
    | none => none
    | some csRest => some (cs ++ csRest)

def c5NodeA : Node Nat Nat := Node.mk (true :: List.replicate 15 false) [Pointer.values [(0, 1)]]

def c5NodeB : Node Nat Nat := Node.mk (true :: List.replicate 15 false) [Pointer.values [(0, 2)]]

end Hamt

/-- A concrete private node header (all-zero inumber, bare name and ratchet
seed). -/
def zeroHeader : PrivateNodeHeader :=
  ⟨List.replicate 32 0, ⟨List.replicate 32 0⟩, List.replicate 32 0⟩

/-! ## Theorems: C10, little-endian uint256 round-trip -/

theorem fromBytesLE_replicate_zero (m : Nat) : fromBytesLE (List.replicate m 0) = 0 := by
  induction m with
  | zero => rfl
  | succ k ih => simp [List.replicate, fromBytesLE, ih]

theorem fromBytesLE_append_replicate (l : List Nat) (m : Nat) :
    fromBytesLE (l ++ List.replicate m 0) = fromBytesLE l := by
  induction l with
  | nil => simp [fromBytesLE_replicate_zero, fromBytesLE]
  | cons b rest ih => simp [fromBytesLE, ih]

theorem fromBytesLE_natToBytesLEAux (n : Nat) :
    fromBytesLE (natToBytesLEAux n) = n := by
  induction n using Nat.strong_induction_on with
  | _ n ih =>
    match n with
    | 0 => simp [natToBytesLEAux, fromBytesLE]
    | m + 1 =>
      rw [natToBytesLEAux]
      rw [fromBytesLE]
      rw [ih ((m + 1) / 256) (Nat.div_lt_self (Nat.succ_pos m) (by omega))]
      omega

theorem length_natToBytesLEAux_le (k : Nat) :
    ∀ n, n < 256 ^ k → (natToBytesLEAux n).length ≤ k := by
  induction k with
  | zero =>
    intro n hn
    interval_cases n
    simp [natToBytesLEAux]
  | succ k ih =>
    intro n hn
    match n with
    | 0 => simp [natToBytesLEAux]
    | m + 1 =>
      rw [natToBytesLEAux]
      simp only [List.length_cons]
      have hdiv : (m + 1) / 256 < 256 ^ k := by
        rw [Nat.div_lt_iff_lt_mul (by omega)]
        calc m + 1 < 256 ^ (k + 1) := hn
        _ = 256 ^ k * 256 := by ring
      exact Nat.succ_le_succ (ih _ hdiv)

theorem fromBytesLE_toBytesLE (n : Nat) : fromBytesLE (toBytesLE n) = n := by
  by_cases h : n = 0
  · subst h; simp [toBytesLE, fromBytesLE]
  · simp [toBytesLE, h, fromBytesLE_natToBytesLEAux]

theorem length_toBytesLE_le (n : Nat) (hn : n < 2 ^ 2048) :
    (toBytesLE n).length ≤ 256 := by
  by_cases h : n = 0
  · subst h; simp [toBytesLE]
  · simp only [toBytesLE, h, if_false]
    refine length_natToBytesLEAux_le 256 n ?_
    calc n < 2 ^ 2048 := hn
    _ = 256 ^ 256 := by
      rw [show (256 : Nat) = 2 ^ 8 by norm_num, ← pow_mul]
      norm_num

/-- C10. For every x < 2^2048, serializing x with the little-endian uint256
codec produces exactly 256 bytes, namely the little-endian digits of x padded
with trailing zero bytes, and deserializing those bytes returns exactly x. -/
theorem c10_uint256_le_roundtrip (x : Nat) (hx : x < 2 ^ 2048) :
    to_bytes_helper x =
      RustResult.ok (toBytesLE x ++ List.replicate (256 - (toBytesLE x).length) 0) ∧
    (toBytesLE x ++ List.replicate (256 - (toBytesLE x).length) 0).length = 256 ∧
    uint256RoundTrip x = RustResult.ok x := by
  have hlen : (toBytesLE x).length ≤ 256 := length_toBytesLE_le x hx
  have h1 : to_bytes_helper x =
      RustResult.ok (toBytesLE x ++ List.replicate (256 - (toBytesLE x).length) 0) := by
    simp [to_bytes_helper, hlen]
  refine ⟨h1, by simp; omega, ?_⟩
  rw [uint256RoundTrip, h1]
  simp only [fromBytesLE_append_replicate, fromBytesLE_toBytesLE]

/-- C10 witness: the round-trip at x = 5. -/
theorem c10_uint256_le_roundtrip_witness :
    (5 : Nat) < 2 ^ 2048 ∧ uint256RoundTrip 5 = RustResult.ok 5 :=
  ⟨by norm_num, (c10_uint256_le_roundtrip 5 (by norm_num)).2.2⟩

/-! ## Theorems: C1, temporal key derivation -/


set_option maxHeartbeats 4000000 in
/-- C1 counterexample: at a concrete header, the temporal key is not the
SHA3-256 hash of the ratchet's derived key — it is the derived key itself.
The hash enters one level later, in the snapshot key. -/
theorem c1_temporal_key_hash_counterexample :
    PrivateNodeHeader.derive_temporal_key zeroHeader ≠
      ⟨⟨sha3_256 (Ratchet.derive_key zeroHeader.ratchet)⟩⟩ := by
  decide

/-- C1 amended: for every private node header, the temporal key of the
current revision equals the ratchet's derived key itself (unhashed), agreeing
with the `From<&Ratchet>` conversion, and the SHA3-256 hash instead produces
the snapshot key from the temporal key. -/
theorem c1_temporal_key_is_derived_key (h : PrivateNodeHeader) :
    h.derive_temporal_key = temporalKeyOfRatchet h.ratchet ∧
    h.derive_temporal_key.key.bytes = h.ratchet.derive_key ∧
    h.derive_snapshot_key = h.derive_temporal_key.derive_snapshot_key :=
  ⟨rfl, rfl, rfl⟩

/-! ## Theorems: C8, `SnapshotKey::decrypt` on short inputs -/

/-- C8: for every snapshot key and every AES-GCM cipher, `decrypt` on the
5-byte ciphertext `[0,0,0,0,0]` (shorter than the 12-byte nonce prefix)
panics in `split_at` instead of returning a typed `Decrypt` error. -/
theorem c8_decrypt_panics_on_short_input
    (aesGcm : List Nat → List Nat → List Nat → Option (List Nat)) (k : SnapshotKey) :
    SnapshotKey.decrypt aesGcm k [0, 0, 0, 0, 0] = RustResult.panicked := rfl

namespace CratesFs

/-! ## Concrete directory fixtures -/






/-! ## Theorems: C2, mid-path file in `read` and `get_node` -/

theorem splitLast_concat (l : List Seg) (a : Seg) :
    splitLast (l ++ [a]) = some (l, a) := by
  simp [splitLast]

/-- C2 counterexample: at a concrete tree whose segment [97] resolves to a
file, both `read [[97],[98]]` and `get_node [[97],[98]]` fail with
`FsError::NotFound`, not with `NotADirectory` as claimed. -/
theorem c2_midpath_file_counterexample :
    PrivateDirectory.lookup_node demoRoot [97] demoForest = some (PrivateNode.file demoFile) ∧
    PrivateDirectory.read demoRoot [[97], [98]] demoForest = RustResult.err FsError.notFound ∧
    PrivateDirectory.get_node demoRoot [[97], [98]] demoForest = RustResult.err FsError.notFound ∧
    FsError.notFound ≠ FsError.notADirectory := by
  refine ⟨by decide, by decide, by decide, by decide⟩

/-- C2 amended: whenever walking the parent path hits a file at an
intermediate segment (the walk reports `NotADirectory`), both `read` and
`get_node` of the full path fail with `FsError::NotFound`. -/
theorem c2_midpath_file_read_get_node {H : Type} [DecidableEq H]
    (self : PrivateDirectory H) (parentPath : List Seg) (lastSeg : Seg)
    (forest : PrivateForest H) (pn : PathNodes H) (seg : Seg)
    (hwalk : self.get_path_nodes parentPath forest = PathNodesResult.notADirectory pn seg) :
    self.read (parentPath ++ [lastSeg]) forest = RustResult.err FsError.notFound ∧
    self.get_node (parentPath ++ [lastSeg]) forest = RustResult.err FsError.notFound := by
  constructor
  · simp only [PrivateDirectory.read, splitLast_concat, hwalk]
  · simp only [PrivateDirectory.get_node, splitLast_concat, hwalk]

/-- C2 witness: the amended statement at the concrete tree. -/
theorem c2_midpath_file_witness :
    PrivateDirectory.read demoRoot ([[97]] ++ [[98]]) demoForest = RustResult.err FsError.notFound ∧
    PrivateDirectory.get_node demoRoot ([[97]] ++ [[98]]) demoForest =
      RustResult.err FsError.notFound :=
  c2_midpath_file_read_get_node demoRoot [[97]] [98] demoForest ⟨[], demoRoot⟩ [97] (by decide)

/-! ## Theorems: C3, mid-path file in `mkdir` -/

/-- C3 counterexample: at a concrete tree whose segment [97] resolves to a
file, `mkdir [[97],[98]]` fails with `FsError::InvalidPath`, not with
`NotADirectory` as claimed. -/
theorem c3_midpath_file_counterexample :
    PrivateDirectory.mkdir demoHash demoRoot [[97], [98]] 0 demoForest (fun n => (n, n)) 0 =
      RustResult.err FsError.invalidPath ∧
    FsError.invalidPath ≠ FsError.notADirectory := by
  refine ⟨by decide, by decide⟩

/-- C3 amended: whenever walking the path hits a file at an intermediate
segment (the walk reports `NotADirectory`), `mkdir` of that path fails with
`FsError::InvalidPath`. -/
theorem c3_midpath_file_mkdir {H : Type} [DecidableEq H] (hash : SaturatedName → H)
    (self : PrivateDirectory H) (segs : List Seg) (time : Int)
    (forest : PrivateForest H) (rng : Nat → Nat × Nat) (c : Nat)
    (pn : PathNodes H) (seg : Seg)
    (hwalk : self.get_path_nodes segs forest = PathNodesResult.notADirectory pn seg) :
    PrivateDirectory.mkdir hash self segs time forest rng c =
      RustResult.err FsError.invalidPath := by
  simp only [PrivateDirectory.mkdir, PrivateDirectory.get_or_create_path_nodes, hwalk]

/-- C3 witness: the amended statement at the concrete tree. -/
theorem c3_midpath_file_witness :
    PrivateDirectory.mkdir demoHash demoRoot [[97], [98]] 0 demoForest (fun n => (n, n)) 0 =
      RustResult.err FsError.invalidPath :=
  c3_midpath_file_mkdir demoHash demoRoot [[97], [98]] 0 demoForest (fun n => (n, n)) 0
    ⟨[], demoRoot⟩ [97] (by decide)

/-! ## Theorems: C9, read-only operations leave root and forest unchanged -/

/-- C9: `get_node`, `read` and `ls`, when they succeed, return the very root
directory and the very forest they were given. -/
theorem c9_read_only_frame {H : Type} [DecidableEq H] (self : PrivateDirectory H)
    (segs : List Seg) (forest : PrivateForest H) :
    (∀ r, self.get_node segs forest = RustResult.ok r →
      r.rootDir = self ∧ r.hamt = forest) ∧
    (∀ r, self.read segs forest = RustResult.ok r →
      r.rootDir = self ∧ r.hamt = forest) ∧
    (∀ r, self.ls segs forest = RustResult.ok r →
      r.rootDir = self ∧ r.hamt = forest) := by
  refine ⟨fun r h => ?_, fun r h => ?_, fun r h => ?_⟩
  · rw [PrivateDirectory.get_node] at h
    split at h
    · cases h
      exact ⟨rfl, rfl⟩
    · split at h
      · cases h
        exact ⟨rfl, rfl⟩
      · cases h
      · cases h
  · rw [PrivateDirectory.read] at h
    split at h
    · cases h
    · split at h
      · split at h
        · cases h
          exact ⟨rfl, rfl⟩
        · cases h
        · cases h
      · cases h
  · rw [PrivateDirectory.ls] at h
    split at h
    · split at h
      · cases h
        exact ⟨rfl, rfl⟩
      · cases h
      · cases h
    · cases h

/-- C9 witness: successful concrete runs of all three operations return the
fixture root and forest. -/
theorem c9_read_only_frame_witness :
    ((PrivateOpResult.mk demoRoot demoForest
        (some (PrivateNode.file demoFile : PrivateNode Nat))).rootDir = demoRoot ∧
      (PrivateOpResult.mk demoRoot demoForest
        (some (PrivateNode.file demoFile : PrivateNode Nat))).hamt = demoForest) ∧
    ((PrivateOpResult.mk demoRoot demoForest ([7] : List Nat)).rootDir = demoRoot ∧
      (PrivateOpResult.mk demoRoot demoForest ([7] : List Nat)).hamt = demoForest) ∧
    ((PrivateOpResult.mk demoRoot demoForest
        [([97], Metadata.new 0 UnixFsNodeKind.file),
         ([98], Metadata.new 0 UnixFsNodeKind.dir)]).rootDir = demoRoot ∧
      (PrivateOpResult.mk demoRoot demoForest
        [([97], Metadata.new 0 UnixFsNodeKind.file),
         ([98], Metadata.new 0 UnixFsNodeKind.dir)]).hamt = demoForest) :=
  ⟨(c9_read_only_frame demoRoot [[97]] demoForest).1 _ (by decide),
   (c9_read_only_frame demoRoot [[97]] demoForest).2.1 _ (by decide),
   (c9_read_only_frame demoRoot [] demoForest).2.2 _ (by decide)⟩

/-! ## Theorems: C6, `ls` yields names in strictly ascending order -/

theorem forestGet_mem {H : Type} [DecidableEq H] (ref : PrivateRef H) :
    ∀ (f : PrivateForest H) (n : PrivateNode H), forestGet ref f = some n →
      n ∈ f.map Prod.snd := by
  intro f
  induction f with
  | nil => intro n h; cases h
  | cons e rest ih =>
    intro n h
    rw [forestGet] at h
    split at h
    · cases h
      exact List.mem_map_of_mem Prod.snd (List.mem_cons_self e rest)
    · exact List.mem_cons_of_mem _ (ih n h)

theorem getPathNodesGo_complete_tail {H : Type} [DecidableEq H] (f : PrivateForest H) :
    ∀ (segs : List Seg) (w : PrivateDirectory H) (acc : List (PrivateDirectory H × Seg))
      (pn : PathNodes H), getPathNodesGo f w segs acc = PathNodesResult.complete pn →
      pn.tail = w ∨ (PrivateNode.dir pn.tail) ∈ f.map Prod.snd := by
  intro segs
  induction segs with
  | nil =>
    intro w acc pn h
    cases h
    exact Or.inl rfl
  | cons seg rest ih =>
    intro w acc pn h
    rw [getPathNodesGo] at h
    split at h
    · rename_i d heq
      rcases ih d (acc ++ [(w, seg)]) pn h with htl | hmem
      · subst htl
        rw [PrivateDirectory.lookup_node] at heq
        split at heq
        · exact Or.inr (forestGet_mem _ _ _ heq)
        · cases heq
      · exact Or.inr hmem
    · cases h
    · cases h

theorem lsEntries_names {H : Type} [DecidableEq H] (forest : PrivateForest H) :
    ∀ (es : List (Seg × PrivateRef H)) (l : List (Seg × Metadata)),
      lsEntries forest es = RustResult.ok l → l.map Prod.fst = es.map Prod.fst := by
  intro es
  induction es with
  | nil => intro l h; cases h; rfl
  | cons e rest ih =>
    intro l h
    obtain ⟨name, ref⟩ := e
    rw [lsEntries] at h
    split at h
    · split at h
      · cases h
        rename_i hrest
        simp [ih _ hrest]
      · cases h
      · cases h
    · split at h
      · cases h
        rename_i hrest
        simp [ih _ hrest]
      · cases h
      · cases h
    · cases h




theorem ascendingNames_map_fst_of_names {l1 : List Seg} {l2 : List (Seg × Metadata)}
    (h : l2.map Prod.fst = l1) (ha : ascendingNames l1 = true) :
    ascendingNames (l2.map Prod.fst) = true := by
  rw [h]; exact ha

/-- C6: whenever the root's entry map and the entry map of every directory
stored in the forest are strictly sorted by segment (the `BTreeMap`
invariant), a successful `ls` yields its (name, metadata) pairs in strictly
ascending byte-wise lexicographic order of name. -/
theorem c6_ls_sorted_names {H : Type} [DecidableEq H] (self : PrivateDirectory H)
    (segs : List Seg) (forest : PrivateForest H)
    (r : PrivateOpResult H (List (Seg × Metadata)))
    (hself : entriesAscending self.content.entries = true)
    (hforest : ∀ e ∈ forest, nodeEntriesAscending e.2 = true)
    (hok : self.ls segs forest = RustResult.ok r) :
    ascendingNames (r.result.map Prod.fst) = true := by
  rw [PrivateDirectory.ls] at hok
  split at hok
  · rename_i pn hwalk
    split at hok
    · rename_i result hls
      cases hok
      have hnames := lsEntries_names forest _ _ hls
      have htail : entriesAscending pn.tail.content.entries = true := by
        rcases getPathNodesGo_complete_tail forest segs self [] pn hwalk with htl | hmem
        · rw [htl]; exact hself
        · rcases List.mem_map.mp hmem with ⟨e, hin, hsnd⟩
          have := hforest e hin
          rw [hsnd] at this
          exact this
      exact ascendingNames_map_fst_of_names hnames htail
    · cases hok
    · cases hok
  · cases hok

/-- C6 witness: `ls` at the concrete tree yields `[[97], [98]]` in order. -/
theorem c6_ls_sorted_names_witness :
    ascendingNames
      ((PrivateOpResult.mk demoRoot demoForest
        [([97], Metadata.new 0 UnixFsNodeKind.file),
         ([98], Metadata.new 0 UnixFsNodeKind.dir)]).result.map Prod.fst) = true :=
  c6_ls_sorted_names demoRoot [] demoForest _ (by decide) (by decide) (by decide)

/-! ## Theorems: C7, the latest-revision seeker -/

theorem seekLoop_has_result (hasStep : Nat → Bool) :
    ∀ (fuel best jump : Nat), hasStep best = true →
      hasStep (seekLoop hasStep fuel best jump) = true := by
  intro fuel
  induction fuel with
  | zero => intro best jump h; rw [seekLoop]; exact h
  | succ n ih =>
    intro best jump h
    rw [seekLoop]
    by_cases hp : hasStep (best + jump) = true
    · simp only [hp, if_true]
      exact ih _ _ hp
    · simp only [Bool.not_eq_true] at hp
      simp only [hp, Bool.false_eq_true, if_false]
      by_cases hj : jump ≤ 1
      · simp only [hj, if_true]
        exact h
      · simp only [hj, if_false]
        exact ih _ _ h

theorem seekLoop_ge (hasStep : Nat → Bool) :
    ∀ (fuel best jump : Nat), best ≤ seekLoop hasStep fuel best jump := by
  intro fuel
  induction fuel with
  | zero => intro best jump; rw [seekLoop]
  | succ n ih =>
    intro best jump
    rw [seekLoop]
    by_cases hp : hasStep (best + jump) = true
    · simp only [hp, if_true]
      exact le_trans (Nat.le_add_right best jump) (ih _ _)
    · simp only [Bool.not_eq_true] at hp
      simp only [hp, Bool.false_eq_true, if_false]
      by_cases hj : jump ≤ 1
      · simp [hj]
      · simp only [hj, if_false]
        exact ih _ _


/-- C7: when the current revision label is absent from the forest,
`search_latest_nodes` returns exactly the current node unchanged; when it is
present, the returned nodes are those published at the step the seeker
settled on, which is itself a present step at or after the current one —
hence never beyond the latest present revision. -/
theorem c7_search_latest_invariant {H : Type} [DecidableEq H]
    (hash : SaturatedName → H) (node : PrivateNode H) (forest : PrivateForest H)
    (fuel : Nat) :
    (forestHas (hash node.header.get_saturated_name) forest = false →
      node.search_latest_nodes hash forest fuel = [node]) ∧
    (forestHas (hash node.header.get_saturated_name) forest = true →
      node.search_latest_nodes hash forest fuel =
        forestGetMultivalue
          ⟨hash ⟨node.header.bareName,
              node.header.ratchet.seekTo (searchLatestStep hash node forest fuel)⟩,
            node.header.ratchet.seekTo (searchLatestStep hash node forest fuel)⟩ forest ∧
      stepHas hash node.header forest (searchLatestStep hash node forest fuel) = true ∧
      node.header.ratchet.step ≤ searchLatestStep hash node forest fuel ∧
      ∀ L, (∀ k, stepHas hash node.header forest k = true → k ≤ L) →
        searchLatestStep hash node forest fuel ≤ L) := by
  constructor
  · intro h
    rw [PrivateNode.search_latest_nodes]
    simp only [h, if_true]
  · intro h
    have hstart : stepHas hash node.header forest node.header.ratchet.step = true := h
    have hres := seekLoop_has_result (stepHas hash node.header forest) fuel
      node.header.ratchet.step 1 hstart
    refine ⟨?_, hres, seekLoop_ge _ _ _ _, fun L hL => hL _ hres⟩
    rw [PrivateNode.search_latest_nodes]
    simp only [h]
    rfl


/-! ## Theorems: C4, path round-trip — infrastructure

The forest output of `fix_up_path_nodes` is characterised by three pure
recursions: `fixUpDirs` (the rebuilt root), `chainDirs` (the rebuilt
directories the subsequent walk will look up, top-down), and
`fixUpNewEntries` (the forest entries prepended, newest first). -/




theorem fixUpGo_eq {H : Type} (hash : SaturatedName → H) (f : PrivateForest H) :
    ∀ (path : List (PrivateDirectory H × Seg)) (child : PrivateDirectory H),
      fixUpGo hash path child f =
        (fixUpDirs hash path child, fixUpNewEntries hash path child ++ f) := by
  intro path
  induction path with
  | nil => intro child; rfl
  | cons ps rest ih =>
    intro child
    obtain ⟨p, s⟩ := ps
    rw [fixUpGo, ih]
    rfl

/-- The saturated-name hashes of the rebuilt root and chain are the advanced
names of the path's directories followed by the (already advanced) child. -/
theorem chainDirs_name_hashes {H : Type} (hash : SaturatedName → H) :
    ∀ (path : List (PrivateDirectory H × Seg)) (child : PrivateDirectory H),
      (fixUpDirs hash path child :: chainDirs hash path child).map
          (fun d => hash d.header.get_saturated_name) =
        path.map (fun ps => hash ps.1.header.advance_ratchet.get_saturated_name) ++
          [hash child.header.get_saturated_name] := by
  intro path
  induction path with
  | nil => intro child; rfl
  | cons ps rest ih =>
    intro child
    obtain ⟨p, s⟩ := ps
    simp only [fixUpDirs, chainDirs, List.map_cons, List.cons_append, List.cons.injEq]
    exact ⟨True.intro, ih child⟩

/-! ### Entry-map and forest lookup lemmas -/

theorem entriesLookup_insert_self {H : Type} (k : Seg) (v : PrivateRef H) :
    ∀ es : List (Seg × PrivateRef H), entriesLookup (entriesInsert k v es) k = some v := by
  intro es
  induction es with
  | nil => simp [entriesInsert, entriesLookup]
  | cons e rest ih =>
    obtain ⟨k0, v0⟩ := e
    rw [entriesInsert]
    by_cases h1 : k < k0
    · rw [if_pos h1, entriesLookup, if_pos rfl]
    · rw [if_neg h1]
      by_cases h2 : k = k0
      · rw [if_pos h2, entriesLookup, if_pos rfl]
      · rw [if_neg h2, entriesLookup, if_neg (fun hh => h2 hh.symm)]
        exact ih

theorem entriesLookup_none_of_not_mem {H : Type} (k : Seg) :
    ∀ es : List (Seg × PrivateRef H), k ∉ es.map Prod.fst →
      entriesLookup es k = none := by
  intro es
  induction es with
  | nil => intro _; rfl
  | cons e rest ih =>
    obtain ⟨k0, v0⟩ := e
    intro hk
    simp only [List.map_cons, List.mem_cons] at hk
    push_neg at hk
    rw [entriesLookup, if_neg (fun hh => hk.1 hh.symm)]
    exact ih hk.2

theorem ascendingNames_head_lt {l : List Seg} {a x : Seg}
    (hsort : ascendingNames (a :: l) = true) (hx : x ∈ l) : a < x := by
  induction l generalizing a with
  | nil => cases hx
  | cons b rest ih =>
    rw [ascendingNames] at hsort
    simp only [Bool.and_eq_true, decide_eq_true_eq] at hsort
    rcases List.mem_cons.mp hx with hxb | hxr
    · rw [hxb]; exact hsort.1
    · exact lt_trans hsort.1 (ih hsort.2 hxr)

theorem ascendingNames_tail {l : List Seg} {a : Seg}
    (hsort : ascendingNames (a :: l) = true) : ascendingNames l = true := by
  cases l with
  | nil => rfl
  | cons b rest =>
    rw [ascendingNames] at hsort
    simp only [Bool.and_eq_true] at hsort
    exact hsort.2

/-- Under the `BTreeMap` sortedness invariant, removing a key after inserting
it leaves no binding for it. -/
theorem entriesLookup_remove_insert {H : Type} (k : Seg) (v : PrivateRef H) :
    ∀ es : List (Seg × PrivateRef H), entriesAscending es = true →
      entriesLookup (entriesRemove k (entriesInsert k v es)) k = none := by
  intro es
  induction es with
  | nil => simp [entriesInsert, entriesRemove, entriesLookup]
  | cons e rest ih =>
    obtain ⟨k0, v0⟩ := e
    intro hsort
    have hsort' : ascendingNames (k0 :: rest.map Prod.fst) = true := hsort
    rw [entriesInsert]
    by_cases h1 : k < k0
    · rw [if_pos h1, entriesRemove, if_pos rfl]
      refine entriesLookup_none_of_not_mem k _ ?_
      simp only [List.map_cons, List.mem_cons]
      push_neg
      refine ⟨ne_of_lt h1, fun hmem => ?_⟩
      exact absurd (lt_trans h1 (ascendingNames_head_lt hsort' hmem)) (lt_irrefl k)
    · rw [if_neg h1]
      by_cases h2 : k = k0
      · rw [if_pos h2, entriesRemove, if_pos rfl]
        refine entriesLookup_none_of_not_mem k _ ?_
        intro hmem
        subst h2
        exact absurd (ascendingNames_head_lt hsort' hmem) (lt_irrefl k)
      · rw [if_neg h2, entriesRemove, if_neg (fun hh => h2 hh.symm), entriesLookup,
          if_neg (fun hh => h2 hh.symm)]
        exact ih (ascendingNames_tail hsort')

theorem forestGet_append_of_not_mem {H : Type} [DecidableEq H] (ref : PrivateRef H) :
    ∀ g f2, ref.saturatedNameHash ∉ g.map Prod.fst →
      forestGet ref (g ++ f2) = forestGet ref f2 := by
  intro g
  induction g with
  | nil => intro f2 _; rfl
  | cons e rest ih =>
    obtain ⟨x, n⟩ := e
    intro f2 hx
    simp only [List.map_cons, List.mem_cons] at hx
    push_neg at hx
    rw [List.cons_append, forestGet, if_neg (fun hh => hx.1 hh.1.symm)]
    exact ih f2 hx.2

theorem forestGet_cons_self {H : Type} [DecidableEq H] (d : PrivateDirectory H)
    (hash : SaturatedName → H) (f : PrivateForest H) :
    forestGet (d.header.get_private_ref hash)
      ((hash d.header.get_saturated_name, PrivateNode.dir d) :: f) =
      some (PrivateNode.dir d) := by
  rw [forestGet, if_pos ⟨rfl, rfl⟩]



theorem chainDirs_length {H : Type} (hash : SaturatedName → H) :
    ∀ (path : List (PrivateDirectory H × Seg)) (child : PrivateDirectory H),
      (chainDirs hash path child).length = path.length := by
  intro path
  induction path with
  | nil => intro child; rfl
  | cons ps rest ih =>
    intro child
    simp [chainDirs, ih]

theorem fixUpNewEntries_map_fst {H : Type} (hash : SaturatedName → H) :
    ∀ (path : List (PrivateDirectory H × Seg)) (child : PrivateDirectory H),
      (fixUpNewEntries hash path child).map Prod.fst =
        (chainDirs hash path child).map (fun d => hash d.header.get_saturated_name) := by
  intro path
  induction path with
  | nil => intro child; rfl
  | cons ps rest ih =>
    intro child
    simp [fixUpNewEntries, chainDirs, ih]

/-- The once-advanced names of the directories collected by walking the
fixed-up path are the twice-advanced names of the original path
directories. -/
theorem zip_advance_name_hashes {H : Type} (hash : SaturatedName → H) :
    ∀ (path : List (PrivateDirectory H × Seg)) (child : PrivateDirectory H),
      (List.zip (fixUpDirs hash path child :: chainDirs hash path child)
          (path.map Prod.snd)).map
        (fun ps => hash ps.1.header.advance_ratchet.get_saturated_name) =
        path.map
          (fun ps => hash ps.1.header.advance_ratchet.advance_ratchet.get_saturated_name) := by
  intro path
  induction path with
  | nil => intro child; rfl
  | cons ps rest ih =>
    intro child
    obtain ⟨p, s⟩ := ps
    simp only [List.map_cons, List.zip_cons_cons, chainDirs]
    exact congrArg₂ List.cons rfl (ih child)

theorem writeFileOf_content {H : Type} [DecidableEq H] {directory : PrivateDirectory H}
    {filename : Seg} {forest : PrivateForest H} {time : Int} {content : List Nat}
    {rng : Nat → Nat × Nat} {c1 c2 : Nat} {file : PrivateFile}
    (h : writeFileOf directory filename forest time content rng c1 = some (file, c2)) :
    file.content.content = content := by
  rw [writeFileOf] at h
  split at h
  · cases h
  · cases h; rfl
  · cases h; rfl

/-- `writeFinish` in closed form: the new root is the fixed-up path over the
parent with the file entry inserted and its ratchet advanced; the new forest
prepends the root, the rebuilt chain, and the file. -/
theorem writeFinish_eq {H : Type} [DecidableEq H] (hash : SaturatedName → H)
    (pnn : PathNodes H) (filename : Seg) (file : PrivateFile)
    (forest : PrivateForest H) (c2 : Nat) :
    writeFinish hash pnn filename file forest c2 =
      RustResult.ok
        (⟨fixUpDirs hash pnn.path
            (insertEntryDir pnn.tail filename (file.header.get_private_ref hash)).advance_ratchet,
          (hash (fixUpDirs hash pnn.path
              (insertEntryDir pnn.tail filename
                (file.header.get_private_ref hash)).advance_ratchet).header.get_saturated_name,
            PrivateNode.dir (fixUpDirs hash pnn.path
              (insertEntryDir pnn.tail filename
                (file.header.get_private_ref hash)).advance_ratchet)) ::
            (fixUpNewEntries hash pnn.path
              (insertEntryDir pnn.tail filename
                (file.header.get_private_ref hash)).advance_ratchet ++
              ((hash file.header.get_saturated_name, PrivateNode.file file) :: forest)),
          ()⟩, c2) := by
  rw [writeFinish, fix_up_path_nodes]
  rw [fixUpGo_eq]
  rfl

/-- The central copy-on-write lemma: walking the fixed-up path from the
rebuilt root, in any forest extending the fixed-up one with fresher entries
`g` whose name hashes avoid the rebuilt chain, completes and reaches the
rebuilt child; the collected path pairs are the rebuilt directories zipped
with the segments. -/
theorem fixUpGo_walk {H : Type} [DecidableEq H] (hash : SaturatedName → H)
    (f : PrivateForest H) :
    ∀ (path : List (PrivateDirectory H × Seg)) (child : PrivateDirectory H)
      (g : PrivateForest H) (acc : List (PrivateDirectory H × Seg)),
      ((chainDirs hash path child).map (fun d => hash d.header.get_saturated_name)).Nodup →
      (∀ x ∈ (chainDirs hash path child).map (fun d => hash d.header.get_saturated_name),
        x ∉ g.map Prod.fst) →
      getPathNodesGo (g ++ (fixUpNewEntries hash path child ++ f))
        (fixUpDirs hash path child) (path.map Prod.snd) acc =
        PathNodesResult.complete
          ⟨acc ++ List.zip (fixUpDirs hash path child :: chainDirs hash path child)
            (path.map Prod.snd), child⟩ := by
  intro path
  induction path with
  | nil =>
    intro child g acc _ _
    simp [fixUpDirs, chainDirs, getPathNodesGo]
  | cons ps rest ih =>
    intro child g acc hnodup hg
    obtain ⟨p, s⟩ := ps
    simp only [chainDirs, List.map_cons, List.nodup_cons] at hnodup
    have hgHead : hash (fixUpDirs hash rest child).header.get_saturated_name ∉
        g.map Prod.fst := by
      refine hg _ ?_
      simp [chainDirs]
    have hlook : (fixUpDirs hash ((p, s) :: rest) child).lookup_node s
        (g ++ (fixUpNewEntries hash ((p, s) :: rest) child ++ f)) =
        some (PrivateNode.dir (fixUpDirs hash rest child)) := by
      rw [PrivateDirectory.lookup_node]
      have hent : entriesLookup (fixUpDirs hash ((p, s) :: rest) child).content.entries s =
          some ((fixUpDirs hash rest child).header.get_private_ref hash) := by
        simp only [fixUpDirs]
        exact entriesLookup_insert_self _ _ _
      rw [hent]
      show forestGet ((fixUpDirs hash rest child).header.get_private_ref hash)
          (g ++ (fixUpNewEntries hash ((p, s) :: rest) child ++ f)) =
        some (PrivateNode.dir (fixUpDirs hash rest child))
      have hgHead2 : ((fixUpDirs hash rest child).header.get_private_ref
          hash).saturatedNameHash ∉ g.map Prod.fst := hgHead
      rw [forestGet_append_of_not_mem _ _ _ hgHead2]
      simp only [fixUpNewEntries]
      exact forestGet_cons_self _ _ _
    have hassoc : g ++ (fixUpNewEntries hash ((p, s) :: rest) child ++ f) =
        (g ++ [(hash (fixUpDirs hash rest child).header.get_saturated_name,
          PrivateNode.dir (fixUpDirs hash rest child))]) ++
          (fixUpNewEntries hash rest child ++ f) := by
      simp [fixUpNewEntries]
    simp only [List.map_cons]
    rw [getPathNodesGo, hlook, hassoc]
    have hg2 : ∀ x ∈ (chainDirs hash rest child).map
        (fun d => hash d.header.get_saturated_name),
        x ∉ ((g ++ [(hash (fixUpDirs hash rest child).header.get_saturated_name,
          PrivateNode.dir (fixUpDirs hash rest child))]).map Prod.fst) := by
      intro x hx
      simp only [List.map_append, List.map_cons, List.map_nil, List.mem_append,
        List.mem_singleton]
      push_neg
      refine ⟨fun hxg => hg x (by simp [chainDirs, hx]) hxg, ?_⟩
      intro hxe
      exact hnodup.1 (hxe ▸ hx)
    change getPathNodesGo ((g ++ [(hash (fixUpDirs hash rest child).header.get_saturated_name,
        PrivateNode.dir (fixUpDirs hash rest child))]) ++
        (fixUpNewEntries hash rest child ++ f))
      (fixUpDirs hash rest child) (List.map Prod.snd rest)
      (acc ++ [(fixUpDirs hash ((p, s) :: rest) child, s)]) = _
    rw [ih child _ _ hnodup.2 hg2]
    simp [chainDirs, List.zip]

/-- C7 witness: with an empty forest the concrete directory node is returned
unchanged; with the fixture forest, the seeker settles on a present step that
is bounded by the latest present one (step 0). -/
theorem c7_search_latest_invariant_witness :
    PrivateNode.search_latest_nodes demoHash (PrivateNode.dir demoDir)
      ([] : PrivateForest Nat) 5 = [PrivateNode.dir demoDir] ∧
    stepHas stepSeparatingHash (PrivateNode.file demoFile : PrivateNode Nat).header demoForest
      (searchLatestStep stepSeparatingHash (PrivateNode.file demoFile) demoForest 5) = true ∧
    searchLatestStep stepSeparatingHash (PrivateNode.file demoFile) demoForest 5 ≤ 0 := by
  refine ⟨(c7_search_latest_invariant demoHash (PrivateNode.dir demoDir) [] 5).1 (by decide),
    ?_, ?_⟩
  · exact ((c7_search_latest_invariant stepSeparatingHash (PrivateNode.file demoFile)
      demoForest 5).2 (by decide)).2.1
  · refine ((c7_search_latest_invariant stepSeparatingHash (PrivateNode.file demoFile)
      demoForest 5).2 (by decide)).2.2.2 0 ?_
    intro k hk
    simp only [stepHas, stepSeparatingHash, forestHas, demoForest, demoFile,
      PrivateFile.new, PrivateNodeHeader.new, SRatchet.zero, SRatchet.seekTo] at hk
    split at hk
    · omega
    · split at hk
      · omega
      · cases hk

/-- C4: after a successful `write(p, b)` — decomposed into its path split,
walk, and file selection, with the fresh revision labels hash-distinct and
the parent's entry map sorted — `read(p)` on the returned root and forest
returns exactly `b`; a subsequent `rm(p)` succeeds returning the file, and
`read(p)` on its result fails with `NotFound`. -/
theorem c4_write_read_rm_roundtrip {H : Type} [DecidableEq H] (hash : SaturatedName → H)
    (self : PrivateDirectory H) (segs : List Seg) (time : Int) (b : List Nat)
    (forest : PrivateForest H) (rng : Nat → Nat × Nat) (c : Nat)
    (dirPath : List Seg) (filename : Seg) (pn : PathNodes H) (c1 : Nat)
    (file : PrivateFile) (c2 : Nat)
    (hsplit : splitLast segs = some (dirPath, filename))
    (hgoc : self.get_or_create_path_nodes dirPath time forest rng c =
      RustResult.ok (pn, c1))
    (hfile : writeFileOf pn.tail filename forest time b rng c1 = some (file, c2))
    (hsegs : pn.path.map Prod.snd = dirPath)
    (hnodup : (pn.path.map (fun ps => hash ps.1.header.advance_ratchet.get_saturated_name) ++
        [hash pn.tail.header.advance_ratchet.get_saturated_name,
         hash file.header.get_saturated_name]).Nodup)
    (hnodup2 : (pn.path.map
        (fun ps => hash ps.1.header.advance_ratchet.advance_ratchet.get_saturated_name) ++
        [hash pn.tail.header.advance_ratchet.advance_ratchet.get_saturated_name]).Nodup)
    (hsorted : entriesAscending pn.tail.content.entries = true) :
    ∃ (root2 root3 : PrivateDirectory H) (f2 f3 : PrivateForest H),
      PrivateDirectory.write hash self segs time b forest rng c =
        RustResult.ok (⟨root2, f2, ()⟩, c2) ∧
      root2.read segs f2 = RustResult.ok ⟨root2, f2, b⟩ ∧
      PrivateDirectory.rm hash root2 segs f2 =
        RustResult.ok ⟨root3, f3, PrivateNode.file file⟩ ∧
      root3.read segs f3 = RustResult.err FsError.notFound := by
  set fileRef := file.header.get_private_ref hash with hfileRefDef
  set child := (insertEntryDir pn.tail filename fileRef).advance_ratchet with hchildDef
  set root2 := fixUpDirs hash pn.path child with hroot2Def
  set f2 := (hash root2.header.get_saturated_name, PrivateNode.dir root2) ::
    (fixUpNewEntries hash pn.path child ++
      ((hash file.header.get_saturated_name, PrivateNode.file file) :: forest)) with hf2Def
  set zipPairs := List.zip (root2 :: chainDirs hash pn.path child) dirPath with hzipDef
  set child2 := (removeEntryDir child filename).advance_ratchet with hchild2Def
  set root3 := fixUpDirs hash zipPairs child2 with hroot3Def
  set f3 := (hash root3.header.get_saturated_name, PrivateNode.dir root3) ::
    (fixUpNewEntries hash zipPairs child2 ++ f2) with hf3Def
  -- name-hash bookkeeping
  have hchainNames := chainDirs_name_hashes hash pn.path child
  have hchildName : hash child.header.get_saturated_name =
      hash pn.tail.header.advance_ratchet.get_saturated_name := rfl
  rw [hchildName] at hchainNames
  have hnodupSplit : ((pn.path.map
        (fun ps => hash ps.1.header.advance_ratchet.get_saturated_name) ++
        [hash pn.tail.header.advance_ratchet.get_saturated_name]) ++
        [hash file.header.get_saturated_name]).Nodup := by
    simpa [List.append_assoc] using hnodup
  have hfullNodup : ((root2 :: chainDirs hash pn.path child).map
      (fun d => hash d.header.get_saturated_name)).Nodup := by
    rw [hchainNames]
    exact (List.nodup_append.mp hnodupSplit).1
  have hfileFresh : hash file.header.get_saturated_name ∉
      (root2 :: chainDirs hash pn.path child).map
        (fun d => hash d.header.get_saturated_name) := by
    rw [hchainNames]
    intro hmem
    exact (List.nodup_append.mp hnodupSplit).2.2 hmem (List.mem_singleton_self _)
  rw [List.map_cons, List.nodup_cons] at hfullNodup
  -- the walk after write
  have hwalk : root2.get_path_nodes dirPath f2 = PathNodesResult.complete
      ⟨zipPairs, child⟩ := by
    rw [PrivateDirectory.get_path_nodes, hzipDef, ← hsegs]
    have := fixUpGo_walk hash
      ((hash file.header.get_saturated_name, PrivateNode.file file) :: forest)
      pn.path child
      [(hash root2.header.get_saturated_name, PrivateNode.dir root2)] []
      hfullNodup.2 ?gcond
    case gcond =>
      intro x hx
      simp only [List.map_cons, List.map_nil, List.mem_singleton]
      intro hxe
      exact hfullNodup.1 (hxe ▸ hx)
    simpa [hf2Def, hroot2Def] using this
  -- the lookup of the file below the rebuilt tail
  have hent : entriesLookup child.content.entries filename = some fileRef :=
    entriesLookup_insert_self filename fileRef pn.tail.content.entries
  have hgetF : forestGet fileRef f2 = some (PrivateNode.file file) := by
    have hnm : fileRef.saturatedNameHash ∉
        (((hash root2.header.get_saturated_name, PrivateNode.dir root2) ::
          fixUpNewEntries hash pn.path child).map Prod.fst) := by
      simp only [List.map_cons, fixUpNewEntries_map_fst]
      exact fun hmem => hfileFresh (by simpa [List.map_cons] using hmem)
    have hsplitF : f2 = ((hash root2.header.get_saturated_name, PrivateNode.dir root2) ::
        fixUpNewEntries hash pn.path child) ++
        ((hash file.header.get_saturated_name, PrivateNode.file file) :: forest) := by
      simp [hf2Def]
    rw [hsplitF, forestGet_append_of_not_mem _ _ _ hnm, forestGet, if_pos ⟨rfl, rfl⟩]
  have hlookF : child.lookup_node filename f2 = some (PrivateNode.file file) := by
    rw [PrivateDirectory.lookup_node, hent]
    exact hgetF
  refine ⟨root2, root3, f2, f3, ?_, ?_, ?_, ?_⟩
  · -- write
    simp only [PrivateDirectory.write, hsplit, hgoc, hfile]
    rw [writeFinish_eq]
  · -- read after write
    simp only [PrivateDirectory.read, hsplit, hwalk, hlookF]
    rw [writeFileOf_content hfile]
  · -- rm
    simp only [PrivateDirectory.rm, hsplit, hwalk, hent, hgetF]
    rw [fix_up_path_nodes, fixUpGo_eq]
    rfl
  · -- read after rm
    have hlen : dirPath.length ≤ (root2 :: chainDirs hash pn.path child).length := by
      simp only [List.length_cons, chainDirs_length]
      rw [← hsegs]
      simp
    have hzd : zipPairs.map Prod.snd = dirPath := by
      rw [hzipDef, List.map_snd_zip _ _ hlen]
    have hchain2Names := chainDirs_name_hashes hash zipPairs child2
    have hchild2Name : hash child2.header.get_saturated_name =
        hash pn.tail.header.advance_ratchet.advance_ratchet.get_saturated_name := rfl
    have hzipNames : zipPairs.map
        (fun ps => hash ps.1.header.advance_ratchet.get_saturated_name) =
        pn.path.map
          (fun ps => hash ps.1.header.advance_ratchet.advance_ratchet.get_saturated_name) := by
      rw [hzipDef, ← hsegs]
      exact zip_advance_name_hashes hash pn.path child
    have hzsnd : zipPairs.map Prod.snd = pn.path.map Prod.snd := by
      rw [hzd, ← hsegs]
    rw [hchild2Name, hzipNames] at hchain2Names
    have hfullNodup2 : ((root3 :: chainDirs hash zipPairs child2).map
        (fun d => hash d.header.get_saturated_name)).Nodup := by
      rw [hchain2Names]
      exact hnodup2
    rw [List.map_cons, List.nodup_cons] at hfullNodup2
    have hwalk3 : root3.get_path_nodes dirPath f3 = PathNodesResult.complete
        ⟨List.zip (root3 :: chainDirs hash zipPairs child2) dirPath, child2⟩ := by
      rw [PrivateDirectory.get_path_nodes, ← hzd]
      have := fixUpGo_walk hash f2 zipPairs child2
        [(hash root3.header.get_saturated_name, PrivateNode.dir root3)] []
        hfullNodup2.2 ?gcond2
      case gcond2 =>
        intro x hx
        simp only [List.map_cons, List.map_nil, List.mem_singleton]
        intro hxe
        exact hfullNodup2.1 (hxe ▸ hx)
      simpa [hf3Def, hroot3Def] using this
    have hlookNone : child2.lookup_node filename f3 = none := by
      rw [PrivateDirectory.lookup_node]
      have : entriesLookup child2.content.entries filename = none :=
        entriesLookup_remove_insert filename fileRef pn.tail.content.entries hsorted
      rw [this]
    simp only [PrivateDirectory.read, hsplit, hwalk3, hlookNone]




/-- C4 witness: the full write / read / rm / read round-trip at a concrete
fresh root, path `[[97]]` and content `[7]`. -/
theorem c4_write_read_rm_roundtrip_witness :
    ∃ (root2 root3 : PrivateDirectory Nat) (f2 f3 : PrivateForest Nat),
      PrivateDirectory.write demoHash roundTripRoot [[97]] 0 [7] [] roundTripRng 0 =
        RustResult.ok (⟨root2, f2, ()⟩, 1) ∧
      root2.read [[97]] f2 = RustResult.ok ⟨root2, f2, [7]⟩ ∧
      PrivateDirectory.rm demoHash root2 [[97]] f2 =
        RustResult.ok ⟨root3, f3, PrivateNode.file roundTripFile⟩ ∧
      root3.read [[97]] f3 = RustResult.err FsError.notFound :=
  c4_write_read_rm_roundtrip demoHash roundTripRoot [[97]] 0 [7] [] roundTripRng 0
    [] [97] ⟨[], roundTripRoot⟩ 0 roundTripFile 1
    (by decide) (by decide) (by decide) (by decide) (by decide) (by decide) (by decide)

end CratesFs


namespace Hamt

variable {K V : Type} [DecidableEq K] [DecidableEq V]

theorem lookupKV_none_iff (k : K) :
    ∀ vs : List (K × V), lookupKV vs k = none ↔ k ∉ vs.map Prod.fst := by
  intro vs
  induction vs with
  | nil => simp [lookupKV]
  | cons e rest ih =>
    obtain ⟨k0, v0⟩ := e
    rw [lookupKV]
    by_cases h : k0 = k
    · subst h
      simp
    · simp only [if_neg h, List.map_cons, List.mem_cons, ih]
      constructor
      · intro hk
        push_neg
        exact ⟨fun hh => h hh.symm, hk⟩
      · intro hk
        push_neg at hk
        exact hk.2

theorem eraseKV_of_not_mem (k : K) :
    ∀ vs : List (K × V), k ∉ vs.map Prod.fst → eraseKV k vs = vs := by
  intro vs
  induction vs with
  | nil => intro _; rfl
  | cons e rest ih =>
    obtain ⟨k0, v0⟩ := e
    intro hk
    simp only [List.map_cons, List.mem_cons] at hk
    push_neg at hk
    rw [eraseKV, if_neg (fun hh => hk.1 hh.symm), ih hk.2]

theorem perm_extract (k : K) (v : V) :
    ∀ vs : List (K × V), lookupKV vs k = some v →
      vs.Perm ((k, v) :: eraseKV k vs) := by
  intro vs
  induction vs with
  | nil => intro h; cases h
  | cons e rest ih =>
    obtain ⟨k0, v0⟩ := e
    intro h
    rw [lookupKV] at h
    by_cases hk : k0 = k
    · rw [if_pos hk] at h
      cases h
      rw [eraseKV, if_pos hk, hk]
    · rw [if_neg hk] at h
      rw [eraseKV, if_neg hk]
      exact ((ih h).cons (k0, v0)).trans (List.Perm.swap _ _ _)

theorem lookupKV_eraseKV_ne {k k0 : K} (hne : k0 ≠ k) :
    ∀ vs : List (K × V), lookupKV (eraseKV k vs) k0 = lookupKV vs k0 := by
  intro vs
  induction vs with
  | nil => rfl
  | cons e rest ih =>
    obtain ⟨k1, v1⟩ := e
    rw [eraseKV]
    by_cases h1 : k1 = k
    · rw [if_pos h1, lookupKV, if_neg (h1 ▸ fun hh => hne hh.symm)]
    · rw [if_neg h1, lookupKV, lookupKV]
      by_cases h2 : k1 = k0
      · rw [if_pos h2, if_pos h2]
      · rw [if_neg h2, if_neg h2, ih]

theorem keys_eraseKV_not_mem (k : K) :
    ∀ vs : List (K × V), (vs.map Prod.fst).Nodup → k ∉ (eraseKV k vs).map Prod.fst := by
  intro vs
  induction vs with
  | nil => intro _ h; cases h
  | cons e rest ih =>
    obtain ⟨k0, v0⟩ := e
    intro hnd
    simp only [List.map_cons, List.nodup_cons] at hnd
    rw [eraseKV]
    by_cases h : k0 = k
    · rw [if_pos h]
      subst h
      exact hnd.1
    · rw [if_neg h]
      simp only [List.map_cons, List.mem_cons]
      push_neg
      exact ⟨fun hh => h hh.symm, ih hnd.2⟩

theorem eraseKV_sublist (k : K) :
    ∀ vs : List (K × V), (eraseKV k vs).Sublist vs := by
  intro vs
  induction vs with
  | nil => exact List.Sublist.refl []
  | cons e rest ih =>
    obtain ⟨k0, v0⟩ := e
    rw [eraseKV]
    by_cases h : k0 = k
    · rw [if_pos h]
      exact List.sublist_cons_self _ _
    · rw [if_neg h]
      exact ih.cons₂ (k0, v0)

theorem keys_eraseKV_nodup (k : K) (vs : List (K × V))
    (hnd : (vs.map Prod.fst).Nodup) : ((eraseKV k vs).map Prod.fst).Nodup :=
  hnd.sublist ((eraseKV_sublist k vs).map Prod.fst)

theorem generateAddOrRemoveChanges_flip (hashK : K → List Nat) (p : Pointer K V)
    (t : ChangeType) (hk : List Nat) :
    generateAddOrRemoveChanges hashK p t.flip hk =
      (generateAddOrRemoveChanges hashK p t hk).map NodeChange.flip := by
  cases p with
  | values vs =>
    simp only [generateAddOrRemoveChanges, List.map_map]
    rfl
  | link l => rfl

theorem cidShortCircuit_symm (a b : HLink K V) :
    cidShortCircuit a b = cidShortCircuit b a := by
  rw [cidShortCircuit, cidShortCircuit]
  cases a.getCid <;> cases b.getCid <;> simp [eq_comm]

end Hamt


/-! ## Theorems: C5, HAMT diff flip law -/

namespace Hamt

variable {K V : Type} [DecidableEq K] [DecidableEq V]

theorem filterMap_diff_erase (hashK : K → List Nat) (hk : List Nat) (k : K)
    (ov : List (K × V)) :
    ∀ mv : List (K × V), k ∉ mv.map Prod.fst →
      (mv.filterMap fun kv =>
        match lookupKV (eraseKV k ov) kv.1 with
        | some v =>
          if v ≠ kv.2 then
            some (⟨ChangeType.modify, (hashK kv.1).take (hk.length + 1)⟩ : NodeChange)
          else none
        | none => some ⟨ChangeType.add, (hashK kv.1).take (hk.length + 1)⟩) =
      (mv.filterMap fun kv =>
        match lookupKV ov kv.1 with
        | some v =>
          if v ≠ kv.2 then
            some (⟨ChangeType.modify, (hashK kv.1).take (hk.length + 1)⟩ : NodeChange)
          else none
        | none => some ⟨ChangeType.add, (hashK kv.1).take (hk.length + 1)⟩) := by
  intro mv hnotin
  apply List.filterMap_congr
  intro kv hkv
  have hne : kv.1 ≠ k := fun hh => hnotin (hh ▸ List.mem_map_of_mem Prod.fst hkv)
  rw [lookupKV_eraseKV_ne hne]

theorem filter_lookup_cons_erase (k : K) (v : V) (mv : List (K × V)) :
    ∀ ov : List (K × V), (ov.map Prod.fst).Nodup →
      ov.filter (fun kv => (lookupKV ((k, v) :: mv) kv.1).isNone) =
        (eraseKV k ov).filter (fun kv => (lookupKV mv kv.1).isNone) := by
  intro ov
  induction ov with
  | nil => intro _; rfl
  | cons e rest ih =>
    obtain ⟨k0, w0⟩ := e
    intro hnd
    simp only [List.map_cons, List.nodup_cons] at hnd
    by_cases h : k0 = k
    · subst h
      rw [eraseKV, if_pos rfl, List.filter_cons]
      have hfalse : (lookupKV ((k0, v) :: mv) (k0, w0).1).isNone = false := by
        rw [lookupKV, if_pos rfl]
        rfl
      rw [hfalse]
      simp only [Bool.false_eq_true, if_neg]
      apply List.filter_congr
      intro kv hkv
      have hne : kv.1 ≠ k0 := fun hh => hnd.1 (hh ▸ List.mem_map_of_mem Prod.fst hkv)
      rw [lookupKV, if_neg (fun hh => hne hh.symm)]
    · rw [eraseKV, if_neg h, List.filter_cons, List.filter_cons]
      have heq : (lookupKV ((k, v) :: mv) (k0, w0).1).isNone =
          (lookupKV mv (k0, w0).1).isNone := by
        rw [lookupKV, if_neg (fun hh => h hh.symm)]
      rw [heq, ih hnd.2]

theorem diffVV_cons_main (hashK : K → List Nat) (hk : List Nat) (k : K) (v : V)
    (mv ov : List (K × V)) (hknotin : k ∉ mv.map Prod.fst)
    (hndo : (ov.map Prod.fst).Nodup) :
    diffVV hashK hk ((k, v) :: mv) ov =
      (match lookupKV ov k with
        | some w =>
          if w ≠ v then
            [(⟨ChangeType.modify, (hashK k).take (hk.length + 1)⟩ : NodeChange)]
          else []
        | none => [⟨ChangeType.add, (hashK k).take (hk.length + 1)⟩])
      ++ diffVV hashK hk mv (eraseKV k ov) := by
  rw [diffVV, diffVV, List.filterMap_cons]
  rw [filterMap_diff_erase hashK hk k ov mv hknotin]
  rw [← filter_lookup_cons_erase k v mv ov hndo]
  cases ho : lookupKV ov k with
  | none =>
    simp only [List.singleton_append, List.cons_append, List.nil_append]
  | some w =>
    by_cases hwv : w = v
    · subst hwv
      simp only [ne_eq, not_true_eq_false, if_false, List.nil_append]
    · simp only [ne_eq, hwv, not_false_eq_true, if_true,
        List.singleton_append, List.cons_append, List.nil_append]

end Hamt


namespace Hamt

variable {K V : Type} [DecidableEq K] [DecidableEq V]

theorem diffVV_cons_other (hashK : K → List Nat) (hk : List Nat) (k : K) (v : V)
    (mv ov : List (K × V)) (hknotin : k ∉ mv.map Prod.fst)
    (hndo : (ov.map Prod.fst).Nodup) :
    (diffVV hashK hk ov ((k, v) :: mv)).Perm
      ((match lookupKV ov k with
        | some w =>
          if v ≠ w then
            [(⟨ChangeType.modify, (hashK k).take (hk.length + 1)⟩ : NodeChange)]
          else []
        | none => [⟨ChangeType.remove, (hashK k).take (hk.length + 1)⟩])
       ++ diffVV hashK hk (eraseKV k ov) mv) := by
  rw [diffVV, diffVV]
  cases ho : lookupKV ov k with
  | some w =>
    have hperm : ov.Perm ((k, w) :: eraseKV k ov) := perm_extract k w ov ho
    have hknotinerase : k ∉ (eraseKV k ov).map Prod.fst := keys_eraseKV_not_mem k ov hndo
    have hA : (ov.filterMap fun kv =>
        match lookupKV ((k, v) :: mv) kv.1 with
        | some w0 =>
          if w0 ≠ kv.2 then
            some (⟨ChangeType.modify, (hashK kv.1).take (hk.length + 1)⟩ : NodeChange)
          else none
        | none => some ⟨ChangeType.add, (hashK kv.1).take (hk.length + 1)⟩).Perm
        ((if v ≠ w then
            [(⟨ChangeType.modify, (hashK k).take (hk.length + 1)⟩ : NodeChange)]
          else []) ++
          ((eraseKV k ov).filterMap fun kv =>
            match lookupKV mv kv.1 with
            | some w0 =>
              if w0 ≠ kv.2 then
                some (⟨ChangeType.modify, (hashK kv.1).take (hk.length + 1)⟩ : NodeChange)
              else none
            | none => some ⟨ChangeType.add, (hashK kv.1).take (hk.length + 1)⟩)) := by
      refine (hperm.filterMap _).trans ?_
      rw [List.filterMap_cons]
      have htail : ((eraseKV k ov).filterMap fun kv =>
          match lookupKV ((k, v) :: mv) kv.1 with
          | some w0 =>
            if w0 ≠ kv.2 then
              some (⟨ChangeType.modify, (hashK kv.1).take (hk.length + 1)⟩ : NodeChange)
            else none
          | none => some ⟨ChangeType.add, (hashK kv.1).take (hk.length + 1)⟩) =
          ((eraseKV k ov).filterMap fun kv =>
            match lookupKV mv kv.1 with
            | some w0 =>
              if w0 ≠ kv.2 then
                some (⟨ChangeType.modify, (hashK kv.1).take (hk.length + 1)⟩ : NodeChange)
              else none
            | none => some ⟨ChangeType.add, (hashK kv.1).take (hk.length + 1)⟩) := by
        apply List.filterMap_congr
        intro kv hkv
        have hmem : kv.1 ∈ (eraseKV k ov).map Prod.fst := List.mem_map_of_mem Prod.fst hkv
        have hne : kv.1 ≠ k := fun hh => hknotinerase (hh ▸ hmem)
        rw [lookupKV, if_neg (fun hh => hne hh.symm)]
      have hhead : (match lookupKV ((k, v) :: mv) (k, w).1 with
          | some w0 =>
            if w0 ≠ (k, w).2 then
              some (⟨ChangeType.modify, (hashK (k, w).1).take (hk.length + 1)⟩ : NodeChange)
            else none
          | none => some ⟨ChangeType.add, (hashK (k, w).1).take (hk.length + 1)⟩) =
          if v ≠ w then
            some (⟨ChangeType.modify, (hashK k).take (hk.length + 1)⟩ : NodeChange)
          else none := by
        rw [lookupKV, if_pos rfl]
      rw [hhead, htail]
      by_cases hvw : v = w
      · rw [if_neg (by simp [hvw]), if_neg (by simp [hvw]), List.nil_append]
      · rw [if_pos hvw, if_pos hvw, List.singleton_append]
    have hB : (((k, v) :: mv).filter fun kv => (lookupKV ov kv.1).isNone) =
        (mv.filter fun kv => (lookupKV (eraseKV k ov) kv.1).isNone) := by
      rw [List.filter_cons]
      have hfalse : (lookupKV ov (k, v).1).isNone = false := by
        show (lookupKV ov k).isNone = false
        rw [ho]
        rfl
      rw [hfalse]
      simp only [Bool.false_eq_true, if_neg]
      apply List.filter_congr
      intro kv hkv
      have hne : kv.1 ≠ k := fun hh => hknotin (hh ▸ List.mem_map_of_mem Prod.fst hkv)
      rw [lookupKV_eraseKV_ne hne]
    rw [hB]
    refine (hA.append_right _).trans ?_
    rw [List.append_assoc]
  | none =>
    have hnotmem : k ∉ ov.map Prod.fst := (lookupKV_none_iff k ov).mp ho
    have herase : eraseKV k ov = ov := eraseKV_of_not_mem k ov hnotmem
    rw [herase]
    have hA : (ov.filterMap fun kv =>
        match lookupKV ((k, v) :: mv) kv.1 with
        | some w0 =>
          if w0 ≠ kv.2 then
            some (⟨ChangeType.modify, (hashK kv.1).take (hk.length + 1)⟩ : NodeChange)
          else none
        | none => some ⟨ChangeType.add, (hashK kv.1).take (hk.length + 1)⟩) =
        (ov.filterMap fun kv =>
          match lookupKV mv kv.1 with
          | some w0 =>
            if w0 ≠ kv.2 then
              some (⟨ChangeType.modify, (hashK kv.1).take (hk.length + 1)⟩ : NodeChange)
            else none
          | none => some ⟨ChangeType.add, (hashK kv.1).take (hk.length + 1)⟩) := by
      apply List.filterMap_congr
      intro kv hkv
      have hne : kv.1 ≠ k := fun hh => hnotmem (hh ▸ List.mem_map_of_mem Prod.fst hkv)
      rw [lookupKV, if_neg (fun hh => hne hh.symm)]
    have hB : (((k, v) :: mv).filter fun kv => (lookupKV ov kv.1).isNone) =
        (k, v) :: (mv.filter fun kv => (lookupKV ov kv.1).isNone) := by
      rw [List.filter_cons]
      have htrue : (lookupKV ov (k, v).1).isNone = true := by
        show (lookupKV ov k).isNone = true
        rw [ho]
        rfl
      rw [htrue, if_pos rfl]
    rw [hA, hB, List.map_cons, List.singleton_append]
    exact List.perm_middle

theorem diffVV_nil_flip (hashK : K → List Nat) (hk : List Nat) :
    ∀ ov : List (K × V),
      diffVV hashK hk ov [] = (diffVV hashK hk [] ov).map NodeChange.flip := by
  intro ov
  rw [diffVV, diffVV]
  simp only [lookupKV, List.filter_nil, List.map_nil, List.append_nil, List.filterMap_nil,
    List.nil_append, Option.isNone_none, List.map_map]
  rw [List.filter_true]
  exact congrFun (List.filterMap_eq_map fun kv : K × V =>
    (⟨ChangeType.add, (hashK kv.1).take (hk.length + 1)⟩ : NodeChange)) ov

theorem diffVV_flip (hashK : K → List Nat) (hk : List Nat) :
    ∀ mv ov : List (K × V), (mv.map Prod.fst).Nodup → (ov.map Prod.fst).Nodup →
      (diffVV hashK hk ov mv).Perm ((diffVV hashK hk mv ov).map NodeChange.flip) := by
  intro mv
  induction mv with
  | nil =>
    intro ov _ _
    rw [← diffVV_nil_flip]
  | cons e mv ih =>
    obtain ⟨k, v⟩ := e
    intro ov hndm hndo
    simp only [List.map_cons, List.nodup_cons] at hndm
    rw [diffVV_cons_main hashK hk k v mv ov hndm.1 hndo, List.map_append]
    refine (diffVV_cons_other hashK hk k v mv ov hndm.1 hndo).trans ?_
    have hhead : (match lookupKV ov k with
        | some w =>
          if v ≠ w then
            [(⟨ChangeType.modify, (hashK k).take (hk.length + 1)⟩ : NodeChange)]
          else []
        | none => [⟨ChangeType.remove, (hashK k).take (hk.length + 1)⟩]) =
        ((match lookupKV ov k with
          | some w =>
            if w ≠ v then
              [(⟨ChangeType.modify, (hashK k).take (hk.length + 1)⟩ : NodeChange)]
            else []
          | none => [⟨ChangeType.add, (hashK k).take (hk.length + 1)⟩]) :
            List NodeChange).map NodeChange.flip := by
      cases lookupKV ov k with
      | none => rfl
      | some w =>
        show (if v ≠ w then
            [(⟨ChangeType.modify, (hashK k).take (hk.length + 1)⟩ : NodeChange)]
          else []) =
          (if w ≠ v then
            [(⟨ChangeType.modify, (hashK k).take (hk.length + 1)⟩ : NodeChange)]
          else ([] : List NodeChange)).map NodeChange.flip
        by_cases hvw : v = w
        · rw [if_neg (by simp [hvw]), if_neg (by simp [hvw])]
          rfl
        · rw [if_pos hvw, if_pos (fun hh => hvw hh.symm)]
          rfl
    rw [hhead]
    exact (ih (eraseKV k ov) hndm.2 (keys_eraseKV_nodup k ov hndo)).append_left _

theorem nodeWF_empty : NodeWF (Node.empty : Node K V) := by
  refine NodeWF.mk _ _ ?_
  intro p hp
  cases hp

theorem keys_replaceKV (k : K) (v : V) :
    ∀ vs : List (K × V), (replaceKV vs k v).map Prod.fst = vs.map Prod.fst := by
  intro vs
  induction vs with
  | nil => rfl
  | cons e rest ih =>
    obtain ⟨k0, v0⟩ := e
    rw [replaceKV]
    by_cases h : k0 = k
    · rw [if_pos h]
      rfl
    · rw [if_neg h, List.map_cons, List.map_cons, ih]

theorem mem_of_mem_insertIdx {α : Type} :
    ∀ (i : Nat) (b : α) (l : List α) (x : α), x ∈ l.insertIdx i b → x = b ∨ x ∈ l := by
  intro i
  induction i with
  | zero =>
    intro b l x hx
    cases hx with
    | head => exact Or.inl rfl
    | tail _ hmem => exact Or.inr hmem
  | succ i ih =>
    intro b l x hx
    cases l with
    | nil => cases hx
    | cons c rest =>
      cases hx with
      | head => exact Or.inr (List.mem_cons_self _ _)
      | tail _ hmem =>
        cases ih b rest x hmem with
        | inl h => exact Or.inl h
        | inr h => exact Or.inr (List.mem_cons_of_mem _ h)

theorem branch_wf {n : Node K V} {i : Nat} {p : Pointer K V} (hwf : NodeWF n)
    (hb : n.branch i = some p) : PointerWF p := by
  cases hwf with
  | mk bm ps hps =>
    rw [Node.branch] at hb
    by_cases hc : (Node.mk bm ps : Node K V).bitmask.getD i false = true
    · rw [if_pos hc] at hb
      exact hps p (List.get?_mem hb)
    · rw [if_neg hc] at hb
      cases hb

theorem resolve_wf {store : Nat → Option (Node K V)} {l : HLink K V} {n : Node K V}
    (hl : LinkWF l) (hSW : StoreWF store) (hr : l.resolve store = some n) : NodeWF n := by
  cases hl with
  | decoded m c hm =>
    rw [HLink.resolve] at hr
    cases hr
    exact hm
  | encoded c =>
    rw [HLink.resolve] at hr
    exact hSW c n hr

theorem foldlM_setValue_WF (hashK : K → List Nat) (store : Nat → Option (Node K V))
    (fuel : Nat)
    (hstep : ∀ (cursor : Nat) (k : K) (v : V) (node node' : Node K V), NodeWF node →
      setValue hashK store fuel cursor k v node = some node' → NodeWF node') :
    ∀ (pairs : List (K × V)) (cursor : Nat) (acc res : Node K V), NodeWF acc →
      pairs.foldlM (fun a kv => setValue hashK store fuel cursor kv.1 kv.2 a) acc =
        some res → NodeWF res := by
  intro pairs
  induction pairs with
  | nil =>
    intro cursor acc res hacc h
    rw [List.foldlM_nil] at h
    cases h
    exact hacc
  | cons kv rest ih =>
    intro cursor acc res hacc h
    rw [List.foldlM_cons] at h
    cases hmid : setValue hashK store fuel cursor kv.1 kv.2 acc with
    | none => rw [hmid] at h; cases h
    | some mid =>
      rw [hmid] at h
      exact ih cursor mid res (hstep cursor kv.1 kv.2 acc mid hacc hmid) h

theorem setValue_WF (hashK : K → List Nat) (store : Nat → Option (Node K V))
    (hSW : StoreWF store) :
    ∀ (fuel cursor : Nat) (k : K) (v : V) (node node' : Node K V),
      NodeWF node → setValue hashK store fuel cursor k v node = some node' →
      NodeWF node' := by
  intro fuel
  induction fuel with
  | zero =>
    intro cursor k v node node' _ h
    rw [setValue] at h
    cases h
  | succ fuel ih =>
    intro cursor k v node node' hwf h
    obtain ⟨bm, ps, hps⟩ := hwf
    rw [setValue] at h
    simp only [Node.bitmask, Node.pointers] at h
    split at h
    · -- bit i is set
      split at h
      · cases h
      · -- bucket case
        rename_i vs heq
        have hvswf : PointerWF (Pointer.values vs) := hps _ (List.get?_mem heq)
        have hvsnd : (vs.map Prod.fst).Nodup := by
          cases hvswf with
          | values _ hnd => exact hnd
        split at h
        · -- replace existing key
          cases h
          refine NodeWF.mk _ _ ?_
          intro p hp
          cases List.mem_or_eq_of_mem_set hp with
          | inl hmem => exact hps p hmem
          | inr hnew =>
            subst hnew
            refine PointerWF.values _ ?_
            rw [keys_replaceKV]
            exact hvsnd
        · split at h
          · -- append to bucket
            cases h
            rename_i hnotsome _
            refine NodeWF.mk _ _ ?_
            intro p hp
            cases List.mem_or_eq_of_mem_set hp with
            | inl hmem => exact hps p hmem
            | inr hnew =>
              subst hnew
              refine PointerWF.values _ ?_
              rw [List.map_append]
              refine List.Nodup.append hvsnd (by simp) ?_
              intro a ha hb
              simp only [List.map_cons, List.map_nil, List.mem_singleton] at hb
              subst hb
              exact ((lookupKV_none_iff a vs).mp
                (Option.not_isSome_iff_eq_none.mp hnotsome)) ha
          · -- split the full bucket one level down
            split at h
            · cases h
            · rename_i child hfold
              cases h
              refine NodeWF.mk _ _ ?_
              intro p hp
              cases List.mem_or_eq_of_mem_set hp with
              | inl hmem => exact hps p hmem
              | inr hnew =>
                subst hnew
                refine PointerWF.link _ (LinkWF.decoded _ _ ?_)
                exact foldlM_setValue_WF hashK store fuel
                  (fun c k0 v0 m m' hm hsv => ih c k0 v0 m m' hm hsv)
                  _ _ _ _ nodeWF_empty hfold
      · -- link case
        rename_i l heq
        have hlwf : PointerWF (Pointer.link l) := hps _ (List.get?_mem heq)
        have hlwf2 : LinkWF l := by
          cases hlwf with
          | link _ hl => exact hl
        split at h
        · cases h
        · rename_i child hres
          split at h
          · cases h
          · rename_i child2 hset
            cases h
            refine NodeWF.mk _ _ ?_
            intro p hp
            cases List.mem_or_eq_of_mem_set hp with
            | inl hmem => exact hps p hmem
            | inr hnew =>
              subst hnew
              exact PointerWF.link _ (LinkWF.decoded _ _
                (ih _ _ _ _ _ (resolve_wf hlwf2 hSW hres) hset))
    · -- bit i is clear: insert a fresh one-entry bucket
      cases h
      refine NodeWF.mk _ _ ?_
      intro p hp
      cases mem_of_mem_insertIdx _ _ _ _ hp with
      | inl hnew =>
        subst hnew
        refine PointerWF.values _ (by simp)
      | inr hmem => exact hps p hmem

theorem createNodeFromPairs_WF (hashK : K → List Nat)
    (store : Nat → Option (Node K V)) (hSW : StoreWF store) (fuel : Nat)
    (values : List (K × V)) (cursor : Nat) (n : Node K V)
    (h : createNodeFromPairs hashK store fuel values cursor = some n) : NodeWF n := by
  rw [createNodeFromPairs] at h
  exact foldlM_setValue_WF hashK store fuel
    (fun c k0 v0 m m' hm hsv => setValue_WF hashK store hSW fuel c k0 v0 m m' hm hsv)
    values cursor _ _ nodeWF_empty h




theorem ndh_zero (hashK : K → List Nat) (store : Nat → Option (Node K V)) :
    NdhFlip hashK store 0 := by
  intro ml ol depth hk _ _
  rw [nodeDiffHelper, nodeDiffHelper]
  trivial

theorem gmc_of_ndh (hashK : K → List Nat) (store : Nat → Option (Node K V))
    (hSW : StoreWF store) (fuel : Nat) (hndh : NdhFlip hashK store fuel) :
    GmcFlip hashK store fuel := by
  intro mp op depth hk hmp hop
  cases mp with
  | link ml =>
    have hml : LinkWF ml := by cases hmp with | link _ h => exact h
    cases op with
    | link ol =>
      have hol : LinkWF ol := by cases hop with | link _ h => exact h
      rw [generateModifiedChanges, generateModifiedChanges]
      exact hndh ml ol depth hk hml hol
    | values ovs =>
      rw [generateModifiedChanges, generateModifiedChanges]
      cases hc : createNodeFromPairs hashK store fuel ovs hk.length with
      | none => trivial
      | some onode =>
        exact hndh ml (HLink.decoded onode none) depth hk hml
          (LinkWF.decoded _ _ (createNodeFromPairs_WF hashK store hSW fuel ovs _ _ hc))
  | values mvs =>
    have hmnd : (mvs.map Prod.fst).Nodup := by cases hmp with | values _ h => exact h
    cases op with
    | values ovs =>
      have hond : (ovs.map Prod.fst).Nodup := by cases hop with | values _ h => exact h
      rw [generateModifiedChanges, generateModifiedChanges]
      exact diffVV_flip hashK hk mvs ovs hmnd hond
    | link ol =>
      have hol : LinkWF ol := by cases hop with | link _ h => exact h
      rw [generateModifiedChanges, generateModifiedChanges]
      cases hc : createNodeFromPairs hashK store fuel mvs hk.length with
      | none => trivial
      | some mnode =>
        exact hndh (HLink.decoded mnode none) ol depth hk
          (LinkWF.decoded _ _ (createNodeFromPairs_WF hashK store hSW fuel mvs _ _ hc))
          hol


theorem flipRel_step {h1 h2 t1 t2 : Option (List NodeChange)}
    (hh : flipRel h1 h2) (ht : flipRel t1 t2) :
    flipRel (optAppend h1 t1) (optAppend h2 t2) := by
  cases h1 with
  | none =>
    cases h2 with
    | none => trivial
    | some l2 => exact hh.elim
  | some l1 =>
    cases h2 with
    | none => exact hh.elim
    | some l2 =>
      cases t1 with
      | none =>
        cases t2 with
        | none => trivial
        | some m2 => exact ht.elim
      | some m1 =>
        cases t2 with
        | none => exact ht.elim
        | some m2 =>
          show (l2 ++ m2).Perm ((l1 ++ m1).map NodeChange.flip)
          rw [List.map_append]
          exact List.Perm.append hh ht

theorem db_of_gmc (hashK : K → List Nat) (store : Nat → Option (Node K V))
    (fuel : Nat) (hgmc : GmcFlip hashK store fuel) :
    DbFlip hashK store fuel := by
  intro nm no depth hk idxs hnm hno
  induction idxs with
  | nil =>
    rw [diffBranches, diffBranches]
    exact List.Perm.nil
  | cons i rest ih =>
    simp only [diffBranches]
    have hhead : flipRel
        (match nm.branch i, no.branch i with
          | some mp, none =>
            some (generateAddOrRemoveChanges hashK mp ChangeType.add (hk ++ [i]))
          | none, some op =>
            some (generateAddOrRemoveChanges hashK op ChangeType.remove (hk ++ [i]))
          | some mp, some op =>
            generateModifiedChanges hashK store fuel mp op (depth.map (· - 1)) (hk ++ [i])
          | none, none => some [])
        (match no.branch i, nm.branch i with
          | some mp, none =>
            some (generateAddOrRemoveChanges hashK mp ChangeType.add (hk ++ [i]))
          | none, some op =>
            some (generateAddOrRemoveChanges hashK op ChangeType.remove (hk ++ [i]))
          | some mp, some op =>
            generateModifiedChanges hashK store fuel mp op (depth.map (· - 1)) (hk ++ [i])
          | none, none => some []) := by
      cases hbm : nm.branch i with
      | none =>
        cases hbo : no.branch i with
        | none => exact List.Perm.nil
        | some op =>
          show (generateAddOrRemoveChanges hashK op ChangeType.add (hk ++ [i])).Perm
            ((generateAddOrRemoveChanges hashK op ChangeType.remove (hk ++ [i])).map
              NodeChange.flip)
          rw [← generateAddOrRemoveChanges_flip]
          exact List.Perm.refl _
      | some mp =>
        cases hbo : no.branch i with
        | none =>
          show (generateAddOrRemoveChanges hashK mp ChangeType.remove (hk ++ [i])).Perm
            ((generateAddOrRemoveChanges hashK mp ChangeType.add (hk ++ [i])).map
              NodeChange.flip)
          rw [← generateAddOrRemoveChanges_flip]
          exact List.Perm.refl _
        | some op =>
          exact hgmc mp op (depth.map (· - 1)) (hk ++ [i]) (branch_wf hnm hbm)
            (branch_wf hno hbo)
    exact flipRel_step hhead ih

theorem ndh_succ_of_db (hashK : K → List Nat) (store : Nat → Option (Node K V))
    (hSW : StoreWF store) (fuel : Nat) (hdb : DbFlip hashK store fuel) :
    NdhFlip hashK store (fuel + 1) := by
  intro ml ol depth hk hml hol
  rw [nodeDiffHelper, nodeDiffHelper]
  by_cases hd : depth = some 0
  · rw [if_pos hd, if_pos hd]
    exact List.Perm.nil
  · rw [if_neg hd, if_neg hd]
    by_cases hcid : cidShortCircuit ml ol = true
    · rw [if_pos hcid, if_pos (by rw [cidShortCircuit_symm]; exact hcid)]
      exact List.Perm.nil
    · rw [if_neg hcid, if_neg (by rw [cidShortCircuit_symm]; exact hcid)]
      cases hm : ml.resolve store with
      | none =>
        cases ho : ol.resolve store with
        | none => trivial
        | some onode => trivial
      | some mnode =>
        cases ho : ol.resolve store with
        | none => trivial
        | some onode =>
          exact hdb mnode onode depth hk (List.range 16) (resolve_wf hml hSW hm)
            (resolve_wf hol hSW ho)

theorem flip_all (hashK : K → List Nat) (store : Nat → Option (Node K V))
    (hSW : StoreWF store) :
    ∀ fuel : Nat,
      NdhFlip hashK store fuel ∧ GmcFlip hashK store fuel ∧ DbFlip hashK store fuel := by
  intro fuel
  induction fuel with
  | zero =>
    have h1 := ndh_zero hashK store
    have h2 := gmc_of_ndh hashK store hSW 0 h1
    exact ⟨h1, h2, db_of_gmc hashK store 0 h2⟩
  | succ fuel ih =>
    have h1 := ndh_succ_of_db hashK store hSW fuel ih.2.2
    have h2 := gmc_of_ndh hashK store hSW (fuel + 1) h1
    exact ⟨h1, h2, db_of_gmc hashK store (fuel + 1) h2⟩



/-- C5. For every pair of well-formed HAMT roots diffed through the same
well-formed block store, whenever both diff directions succeed, the change
list of `diff(B, A)` is a permutation of the change list of `diff(A, B)` with
every `Add` turned into a `Remove` at the same hashkey, every `Remove` turned
into an `Add`, and every `Modify` kept at the same hashkey; consequently the
two lists have equal length. -/
theorem c5_diff_flip_law (hashK : K → List Nat) (store : Nat → Option (Node K V))
    (hSW : StoreWF store) (fuel : Nat) (a b : HLink K V) (depth : Option Nat)
    (la lb : List NodeChange) (hwa : LinkWF a) (hwb : LinkWF b)
    (hab : nodeDiff hashK store fuel a b depth = some la)
    (hba : nodeDiff hashK store fuel b a depth = some lb) :
    lb.Perm (la.map NodeChange.flip) ∧ lb.length = la.length := by
  have h := (flip_all hashK store hSW fuel).1 a b depth [] hwa hwb
  rw [nodeDiff] at hab hba
  rw [hab, hba] at h
  have hperm : lb.Perm (la.map NodeChange.flip) := h
  refine ⟨hperm, ?_⟩
  rw [hperm.length_eq, List.length_map]

theorem c5_eval_ab :
    nodeDiff (fun k : Nat => [k % 16]) (fun _ => none) 1
      (HLink.decoded c5NodeA none) (HLink.decoded c5NodeB none) none =
      some [(⟨ChangeType.modify, [0]⟩ : NodeChange)] := by
  have hr : List.range 16 = [0, 1, 2, 3, 4, 5, 6, 7, 8, 9, 10, 11, 12, 13, 14, 15] := by
    decide
  rw [nodeDiff, nodeDiffHelper]
  simp [hr, c5NodeA, c5NodeB, diffBranches, generateModifiedChanges, diffVV,
    lookupKV, Node.branch, Node.bitmask, Node.pointers, rank, HLink.resolve,
    cidShortCircuit, HLink.getCid, List.getD, List.replicate, List.take,
    List.filter, List.filterMap, List.get?]

theorem c5_eval_ba :
    nodeDiff (fun k : Nat => [k % 16]) (fun _ => none) 1
      (HLink.decoded c5NodeB none) (HLink.decoded c5NodeA none) none =
      some [(⟨ChangeType.modify, [0]⟩ : NodeChange)] := by
  have hr : List.range 16 = [0, 1, 2, 3, 4, 5, 6, 7, 8, 9, 10, 11, 12, 13, 14, 15] := by
    decide
  rw [nodeDiff, nodeDiffHelper]
  simp [hr, c5NodeA, c5NodeB, diffBranches, generateModifiedChanges, diffVV,
    lookupKV, Node.branch, Node.bitmask, Node.pointers, rank, HLink.resolve,
    cidShortCircuit, HLink.getCid, List.getD, List.replicate, List.take,
    List.filter, List.filterMap, List.get?]

theorem c5_diff_flip_law_witness :
    ([(⟨ChangeType.modify, [0]⟩ : NodeChange)]).Perm
        (([(⟨ChangeType.modify, [0]⟩ : NodeChange)]).map NodeChange.flip) ∧
      ([(⟨ChangeType.modify, [0]⟩ : NodeChange)] : List NodeChange).length =
        ([(⟨ChangeType.modify, [0]⟩ : NodeChange)] : List NodeChange).length :=
  c5_diff_flip_law (fun k : Nat => [k % 16]) (fun _ => none)
    (fun _ _ h => Option.noConfusion h) 1
    (HLink.decoded c5NodeA none) (HLink.decoded c5NodeB none) none _ _
    (LinkWF.decoded _ _ (NodeWF.mk _ _ (by
      intro p hp
      rw [List.mem_singleton] at hp
      subst hp
      exact PointerWF.values _ (by simp))))
    (LinkWF.decoded _ _ (NodeWF.mk _ _ (by
      intro p hp
      rw [List.mem_singleton] at hp
      subst hp
      exact PointerWF.values _ (by simp))))
    c5_eval_ab c5_eval_ba

end Hamt

end Wnfs
